import Mathlib

/-!
Verification of the analytics transformation pipeline of the trade-analytics
dashboard.  The definitions below are shallow embeddings of the JavaScript
source: JS objects with string keys become insertion-ordered association
lists, JS numbers become exact rationals, nullable JS values become
`Option`, and JS `Date` arithmetic becomes civil-calendar arithmetic over
epoch-day numbers.  Each definition's doc comment names the source function
it embeds.
-/

/-! ## JS object primitives

A JS object used as a dictionary is modelled as an insertion-ordered
association list: assigning to a fresh key appends at the end, assigning to
an existing key updates in place. -/

/-- Property read `obj[k]`: the value at key `k`, or `none` (undefined). -/
def olook {κ : Type} [DecidableEq κ] {β : Type} : List (κ × β) → κ → Option β
  | [], _ => none
  | (k0, v) :: rest, k => if k0 = k then some v else olook rest k

/-- Property write `obj[k] = v`: update in place, or append a fresh key. -/
def oset {κ : Type} [DecidableEq κ] {β : Type} : List (κ × β) → κ → β → List (κ × β)
  | [], k, v => [(k, v)]
  | (k0, v0) :: rest, k, v =>
      if k0 = k then (k0, v) :: rest else (k0, v0) :: oset rest k v

/-- Numeric accumulation `obj[k] = (obj[k] || 0) + v`. -/
def bump {κ : Type} [DecidableEq κ] : List (κ × ℚ) → κ → ℚ → List (κ × ℚ)
  | [], k, v => [(k, v)]
  | (k0, v0) :: rest, k, v =>
      if k0 = k then (k0, v0 + v) :: rest else (k0, v0) :: bump rest k v

/-- The keys of a JS object, in insertion order. -/
def okeys {κ : Type} {β : Type} (m : List (κ × β)) : List κ := m.map Prod.fst

/-- Rebuild an object by assigning the listed entries left to right
(`entries.forEach(([k, v]) => obj[k] = v)` starting from `{}`). -/
def objOfList {κ : Type} [DecidableEq κ] {β : Type} (ents : List (κ × β)) : List (κ × β) :=
  ents.foldl (fun m p => oset m p.1 p.2) []

/-! ## Civil-calendar and ISO-week arithmetic

JS `Date` values at local midnight are modelled by their epoch-day number
(days since 1970-01-01).  `daysFromCivil`/`civilFromDays` are the standard
civil-calendar conversions; Lean's `Int` division is floor division for
positive divisors, which agrees with the truncating division of the usual
formulation on all days of the common era, the only range exercised here. -/

/-- Epoch-day number of the civil date `y-m-d` (month 1..12). -/
def daysFromCivil (y m d : ℤ) : ℤ :=
  let y1 := y - (if m ≤ 2 then 1 else 0)
  let era := (if 0 ≤ y1 then y1 else y1 - 399) / 400
  let yoe := y1 - era * 400
  let mp := m + (if 2 < m then -3 else 9)
  let doy := (153 * mp + 2) / 5 + d - 1
  let doe := yoe * 365 + yoe / 4 - yoe / 100 + doy
  era * 146097 + doe - 719468

/-- Civil date `(y, m, d)` of an epoch-day number (month 1..12). -/
def civilFromDays (z : ℤ) : ℤ × ℤ × ℤ :=
  let z1 := z + 719468
  let era := (if 0 ≤ z1 then z1 else z1 - 146096) / 146097
  let doe := z1 - era * 146097
  let yoe := (doe - doe / 1460 + doe / 36524 - doe / 146096) / 365
  let y := yoe + era * 400
  let doy := doe - (365 * yoe + yoe / 4 - yoe / 100)
  let mp := (5 * doy + 2) / 153
  let d := doy - (153 * mp + 2) / 5 + 1
  let m := mp + (if mp < 10 then 3 else -9)
  (y + (if m ≤ 2 then 1 else 0), m, d)

/-- JS `Date.prototype.getDay` (0 = Sunday) of an epoch-day number:
day 0 (1970-01-01) was a Thursday. -/
def jsDayOfWeek (z : ℤ) : ℤ := (z + 4) % 7

/-- JS `Math.round` on an exact rational: floor of `q + 1/2`. -/
def jsRound (q : ℚ) : ℤ := ⌊q + 1 / 2⌋

/-- JS `String(n).padStart(2, '0')`. -/
def pad2 (n : ℤ) : String :=
  let s := toString n
  if s.length < 2 then "0" ++ s else s

/-- Result of `getISOWeekLabel`: the ISO year-week key and, as the label, the
epoch-day of the Monday of that week (the source formats this Monday with
`toLocaleDateString`, a purely presentational step not modelled). -/
structure WeekLabel where
  weekKey : String
  labelDay : ℤ
  deriving DecidableEq, Repr

/-- Embedding of `getISOWeekLabel` (WeeklyDealerVolumeChart): ISO-8601
week-numbering key `"YYYY-Www"` and the Monday of the week of `y-m-d`. -/
def getISOWeekLabel (y m d : ℤ) : WeekLabel :=
  let z := daysFromCivil y m d
  let tmpZ := z + 3 - (jsDayOfWeek z + 6) % 7
  let ty := (civilFromDays tmpZ).1
  let week1Z := daysFromCivil ty 1 4
  let weekNum :=
    1 + jsRound (((tmpZ - week1Z - 3 + (jsDayOfWeek week1Z + 6) % 7 : ℤ) : ℚ) / 7)
  let mondayZ := z - (jsDayOfWeek z + 6) % 7
  ⟨toString ty ++ "-W" ++ pad2 weekNum, mondayZ⟩

/-- Integer-arithmetic form of `getISOWeekLabel`, used to evaluate concrete
dates inside kernel reduction (`jsRound (x / 7) = (2x + 7) / 14`). -/
def getISOWeekLabelInt (y m d : ℤ) : WeekLabel :=
  let z := daysFromCivil y m d
  let tmpZ := z + 3 - (jsDayOfWeek z + 6) % 7
  let ty := (civilFromDays tmpZ).1
  let week1Z := daysFromCivil ty 1 4
  let weekNum :=
    1 + (2 * (tmpZ - week1Z - 3 + (jsDayOfWeek week1Z + 6) % 7) + 7) / 14
  let mondayZ := z - (jsDayOfWeek z + 6) % 7
  ⟨toString ty ++ "-W" ++ pad2 weekNum, mondayZ⟩

/-! ## WeeklyBucketer

Embedding of the `useMemo` bucketing loop of `WeeklyDealerVolumeChart`
(part_003 lines 204-218).  Input rows come from the weekly query, which
restricts to `side IN ('Buy', 'Sell') AND counter_party IS NOT NULL` and
returns the ranking volume (`size_in_eur_v2`) and the display volume. -/

/-- A row of the weekly query: trade date as a civil triple, client-side
`side`, non-null dealer, ranking volume and display volume. -/
structure WRow where
  y : ℤ
  m : ℤ
  d : ℤ
  side : String
  dealer : String
  volume : ℚ
  displayVolume : ℚ
  deriving DecidableEq, Repr

/-- The ISO week key of a row's trade date. -/
def weekKeyOf (r : WRow) : String := (getISOWeekLabel r.y r.m r.d).weekKey

/-- One value of `weekMap`: the Monday label and the four per-dealer maps. -/
structure WeekBucket where
  labelDay : ℤ
  buy : List (String × ℚ)
  sell : List (String × ℚ)
  buyDisplay : List (String × ℚ)
  sellDisplay : List (String × ℚ)
  deriving DecidableEq, Repr

/-- Fresh bucket `{ label, buy: {}, sell: {}, buyDisplay: {}, sellDisplay: {} }`. -/
def emptyBucket (labelDay : ℤ) : WeekBucket := ⟨labelDay, [], [], [], []⟩

/-- Process one row of the bucketing loop: ensure the week's bucket exists,
then flip the side (client `Buy` is the dealer's sell) and accumulate the
ranking volume and the display volume under the dealer's key. -/
def applyWeekRow (wm : List (String × WeekBucket)) (r : WRow) : List (String × WeekBucket) :=
  let wl := getISOWeekLabel r.y r.m r.d
  let b0 := (olook wm wl.weekKey).getD (emptyBucket wl.labelDay)
  let b1 :=
    if r.side = "Buy" then
      { b0 with
        sell := bump b0.sell r.dealer r.volume
        sellDisplay := bump b0.sellDisplay r.dealer r.displayVolume }
    else
      { b0 with
        buy := bump b0.buy r.dealer r.volume
        buyDisplay := bump b0.buyDisplay r.dealer r.displayVolume }
  oset wm wl.weekKey b1

/-- One iteration of the bucketing loop, also accumulating
`globalRankTotals[dealer] += volume` (ranking volume only). -/
def weeklyStep (st : List (String × WeekBucket) × List (String × ℚ)) (r : WRow) :
    List (String × WeekBucket) × List (String × ℚ) :=
  (applyWeekRow st.1 r, bump st.2 r.dealer r.volume)

/-- The full bucketing loop over the query rows, starting from empty
`weekMap` and `globalRankTotals`. -/
def bucketState (rows : List WRow) : List (String × WeekBucket) × List (String × ℚ) :=
  rows.foldl weeklyStep ([], [])

/-- The `weekMap` produced by the bucketing loop. -/
def weekMapOf (rows : List WRow) : List (String × WeekBucket) := (bucketState rows).1

/-- The `globalRankTotals` map produced by the bucketing loop. -/
def globalRankTotals (rows : List WRow) : List (String × ℚ) := (bucketState rows).2

/-- Accumulated value inside one of a bucket's four maps, read through a
projection: 0 when the week or the dealer is absent. -/
def mapValAt (wm : List (String × WeekBucket)) (k : String)
    (f : WeekBucket → List (String × ℚ)) (d : String) : ℚ :=
  match olook wm k with
  | some b => (olook (f b) d).getD 0
  | none => 0

/-- Reference sum: total of `proj` over the rows with the given week key,
dealer and client side. -/
def matchSum (rows : List WRow) (k d s : String) (proj : WRow → ℚ) : ℚ :=
  (rows.map fun r => if weekKeyOf r = k ∧ r.dealer = d ∧ r.side = s then proj r else 0).sum

/-! ## TopNCollapser

Embedding of steps 2-3 of the same `useMemo` (part_003 lines 219-263).  The
source fixes `N = 10` in `sortedDealers.slice(0, 10)`; the definitions take
`N` as a parameter so the collapse can be stated for every `N`, with the
source's constant recovered at `N = 10`.  JS `Array.prototype.sort` is
stable, and a stable sort under a consistent comparator has a unique
result, here realised by insertion sort. -/

/-- Descending-by-total order used by `sort((a, b) => b[1] - a[1])`. -/
def totalsGE (a b : String × ℚ) : Prop := b.2 ≤ a.2

instance : DecidableRel totalsGE := fun a b => inferInstanceAs (Decidable (b.2 ≤ a.2))

instance : IsTotal (String × ℚ) totalsGE := ⟨fun a b => le_total b.2 a.2⟩

instance : IsTrans (String × ℚ) totalsGE := ⟨fun _ _ _ h1 h2 => le_trans h2 h1⟩

/-- The dealer totals sorted descending by total ranking volume, stable. -/
def sortPairsDesc (t : List (String × ℚ)) : List (String × ℚ) :=
  List.insertionSort totalsGE t

/-- Step 2 applied to an arbitrary totals map: the first `n` dealer names of
the descending sort (`sortedDealers.slice(0, n).map(d => d[0])`). -/
def topDealersOfTotals (t : List (String × ℚ)) (n : ℕ) : List String :=
  ((sortPairsDesc t).take n).map Prod.fst

/-- The named top-`n` dealer set for the queried rows, decided from
`globalRankTotals` alone. -/
def topDealers (rows : List WRow) (n : ℕ) : List String :=
  topDealersOfTotals (globalRankTotals rows) n

/-- Step 3's accumulator `otherBuy` / `otherSell` for one per-bucket map:
the sum of the entries whose dealer is not named.  (In the chart entry the
sell-side value is then negated for the downward stack, a sign convention
only.) -/
def otherSum (m : List (String × ℚ)) (top : List String) : ℚ :=
  (m.map fun p => if p.1 ∈ top then 0 else p.2).sum

/-- Sum of the named dealers' values present in one per-bucket map. -/
def namedSum (m : List (String × ℚ)) (top : List String) : ℚ :=
  (top.map fun d => (olook m d).getD 0).sum

/-- Total of one per-bucket map. -/
def totalSum (m : List (String × ℚ)) : ℚ := (m.map Prod.snd).sum

/-! ## FilterCompiler

Embedding of `buildExtraFilters` (part_003 lines 29-51) and of the StatsBar
variant (StatsBar.jsx lines 89-103), which lacks the unknown-dealer block.
SQL text is modelled as the very string the source builds; the single-quote
character is produced by `sq` to keep the text byte-for-byte faithful. -/

/-- The single-quote character as a string. -/
def sqc : String := String.singleton (Char.ofNat 39)

/-- A filter selection as passed to `buildExtraFilters`: `_clientId` is a
possibly missing string, the four category selections are string lists. -/
structure Filters where
  clientId : Option String
  includeUnknown : Bool
  products : List String
  sectors : List String
  regions : List String
  seniorities : List String
  deriving DecidableEq, Repr

/-- JS truthiness of `filters?._clientId`: a present, non-empty string. -/
def activeClientId (f : Filters) : Option String :=
  match f.clientId with
  | some c => if c = "" then none else some c
  | none => none

/-- JS `Array.prototype.join(', ')`. -/
def joinComma : List String → String
  | [] => ""
  | [x] => x
  | x :: y :: xs => x ++ ", " ++ joinComma (y :: xs)

/-- The compiled fragment: SQL text plus positional parameters. -/
structure FilterResult where
  sql : String
  params : List String
  deriving DecidableEq, Repr

/-- The client-identity chunk appended when `context === 'client'` and a
client id is configured. -/
def clientClause : String := " AND glimpse_buy_side = ?"

/-- The unknown-dealer exclusion chunk appended when `includeUnknown` is
false. -/
def unknownClause : String :=
  " AND counter_party IS NOT NULL AND counter_party NOT IN (" ++ sqc ++ "Unknown" ++ sqc
    ++ ", " ++ sqc ++ "Unknown Dealer" ++ sqc ++ ")"

/-- An `IN` chunk: one `?` placeholder per selected value. -/
def inClause (col : String) (vals : List String) : String :=
  " AND " ++ col ++ " IN (" ++ joinComma (vals.map fun _ => "?") ++ ")"

/-- Embedding of `buildExtraFilters(filters, context)` from part_003: the
client-identity condition, the unknown-dealer exclusion, then the four `IN`
conditions for non-empty selections, accumulated in source order. -/
def buildExtraFilters (f : Filters) (context : String) : FilterResult :=
  let st : String × List String := ("", [])
  let st :=
    if context = "client" then
      match activeClientId f with
      | some cid => (st.1 ++ clientClause, st.2 ++ [cid])
      | none => st
    else st
  let st := if f.includeUnknown then st else (st.1 ++ unknownClause, st.2)
  let st :=
    if f.products ≠ [] then
      (st.1 ++ inClause "secmst_bond_category" f.products, st.2 ++ f.products)
    else st
  let st :=
    if f.sectors ≠ [] then
      (st.1 ++ inClause "secmst_glimpse_sector" f.sectors, st.2 ++ f.sectors)
    else st
  let st :=
    if f.regions ≠ [] then
      (st.1 ++ inClause "secmst_region" f.regions, st.2 ++ f.regions)
    else st
  let st :=
    if f.seniorities ≠ [] then
      (st.1 ++ inClause "secmst_seniority" f.seniorities, st.2 ++ f.seniorities)
    else st
  ⟨st.1, st.2⟩

/-- Embedding of the StatsBar variant of `buildExtraFilters`, which has no
unknown-dealer block. -/
def buildExtraFiltersStats (f : Filters) (context : String) : FilterResult :=
  let st : String × List String := ("", [])
  let st :=
    if context = "client" then
      match activeClientId f with
      | some cid => (st.1 ++ clientClause, st.2 ++ [cid])
      | none => st
    else st
  let st :=
    if f.products ≠ [] then
      (st.1 ++ inClause "secmst_bond_category" f.products, st.2 ++ f.products)
    else st
  let st :=
    if f.sectors ≠ [] then
      (st.1 ++ inClause "secmst_glimpse_sector" f.sectors, st.2 ++ f.sectors)
    else st
  let st :=
    if f.regions ≠ [] then
      (st.1 ++ inClause "secmst_region" f.regions, st.2 ++ f.regions)
    else st
  let st :=
    if f.seniorities ≠ [] then
      (st.1 ++ inClause "secmst_seniority" f.seniorities, st.2 ++ f.seniorities)
    else st
  ⟨st.1, st.2⟩

/-- An atomic compiled condition; the unknown-dealer exclusion is one unit
(`IS NOT NULL` plus `NOT IN` over two literals, no parameters). -/
inductive FilterCond where
  | dateLower (v : String)
  | dateUpper (v : String)
  | clientEq (v : String)
  | unknownExclusion
  | inCond (col : String) (vals : List String)
  deriving DecidableEq, Repr

/-- SQL text of one extra condition, as the corresponding source chunk; the
two date bounds render as the fixed head of every query's WHERE clause. -/
def condSql : FilterCond → String
  | .dateLower _ => "trade_date >= ?"
  | .dateUpper _ => " AND trade_date < ?"
  | .clientEq _ => clientClause
  | .unknownExclusion => unknownClause
  | .inCond col vals => inClause col vals

/-- Positional parameters contributed by one condition. -/
def condParams : FilterCond → List String
  | .dateLower v => [v]
  | .dateUpper v => [v]
  | .clientEq v => [v]
  | .unknownExclusion => []
  | .inCond _ vals => vals

/-- Concatenated SQL text of a condition list. -/
def sqlOfConds : List FilterCond → String
  | [] => ""
  | c :: cs => condSql c ++ sqlOfConds cs

/-- Concatenated parameters of a condition list. -/
def paramsOfConds (l : List FilterCond) : List String := l.flatMap condParams

/-- The extra conditions of `buildExtraFilters`, as a structured list in
the order the source appends its chunks. -/
def extraConds (f : Filters) (context : String) : List FilterCond :=
  (if context = "client" then
      match activeClientId f with
      | some cid => [.clientEq cid]
      | none => []
    else []) ++
  (if f.includeUnknown then [] else [.unknownExclusion]) ++
  (if f.products ≠ [] then [.inCond "secmst_bond_category" f.products] else []) ++
  (if f.sectors ≠ [] then [.inCond "secmst_glimpse_sector" f.sectors] else []) ++
  (if f.regions ≠ [] then [.inCond "secmst_region" f.regions] else []) ++
  (if f.seniorities ≠ [] then [.inCond "secmst_seniority" f.seniorities] else [])

/-- The extra conditions of the StatsBar variant: as `extraConds` but with
no unknown-dealer block. -/
def extraCondsStats (f : Filters) (context : String) : List FilterCond :=
  (if context = "client" then
      match activeClientId f with
      | some cid => [.clientEq cid]
      | none => []
    else []) ++
  (if f.products ≠ [] then [.inCond "secmst_bond_category" f.products] else []) ++
  (if f.sectors ≠ [] then [.inCond "secmst_glimpse_sector" f.sectors] else []) ++
  (if f.regions ≠ [] then [.inCond "secmst_region" f.regions] else []) ++
  (if f.seniorities ≠ [] then [.inCond "secmst_seniority" f.seniorities] else [])

/-- The full ordered condition list of a compiled query: the two date
bounds (`trade_date >= ? AND trade_date < ?`, parameters
`[dateFrom, dateTo]` prepended to `extra.params`) followed by the extra
conditions. -/
def compiledConditions (f : Filters) (context dateFrom dateTo : String) : List FilterCond :=
  FilterCond.dateLower dateFrom :: FilterCond.dateUpper dateTo :: extraConds f context

/-- The positional parameter list of a compiled query,
`[...baseParams, ...extra.params]`. -/
def fullParams (f : Filters) (context dateFrom dateTo : String) : List String :=
  [dateFrom, dateTo] ++ (buildExtraFilters f context).params

/-- Number of `?` placeholders in a SQL string. -/
def qcount (s : String) : ℕ := s.data.count '?'

/-- The shape of a filter selection: everything the compiled SQL text may
depend on - the guards and the selection sizes, never the selected values. -/
def filterShape (f : Filters) : Bool × Bool × ℕ × ℕ × ℕ × ℕ :=
  ((activeClientId f).isSome, f.includeUnknown,
    f.products.length, f.sectors.length, f.regions.length, f.seniorities.length)

/-- An `IN` chunk determined by a placeholder count alone. -/
def inClauseN (col : String) (n : ℕ) : String :=
  " AND " ++ col ++ " IN (" ++ joinComma (List.replicate n "?") ++ ")"

/-- The SQL text of the part_003 compiler as a function of the filter
shape only: the selected values cannot reach the text. -/
def canonicalSql (sh : Bool × Bool × ℕ × ℕ × ℕ × ℕ) (ctx : String) : String :=
  (if ctx = "client" ∧ sh.1 then clientClause else "") ++
  (if sh.2.1 then "" else unknownClause) ++
  (if sh.2.2.1 ≠ 0 then inClauseN "secmst_bond_category" sh.2.2.1 else "") ++
  (if sh.2.2.2.1 ≠ 0 then inClauseN "secmst_glimpse_sector" sh.2.2.2.1 else "") ++
  (if sh.2.2.2.2.1 ≠ 0 then inClauseN "secmst_region" sh.2.2.2.2.1 else "") ++
  (if sh.2.2.2.2.2 ≠ 0 then inClauseN "secmst_seniority" sh.2.2.2.2.2 else "")

/-- The SQL text of the StatsBar compiler as a function of the filter
shape only. -/
def canonicalSqlStats (sh : Bool × Bool × ℕ × ℕ × ℕ × ℕ) (ctx : String) : String :=
  (if ctx = "client" ∧ sh.1 then clientClause else "") ++
  (if sh.2.2.1 ≠ 0 then inClauseN "secmst_bond_category" sh.2.2.1 else "") ++
  (if sh.2.2.2.1 ≠ 0 then inClauseN "secmst_glimpse_sector" sh.2.2.2.1 else "") ++
  (if sh.2.2.2.2.1 ≠ 0 then inClauseN "secmst_region" sh.2.2.2.2.1 else "") ++
  (if sh.2.2.2.2.2 ≠ 0 then inClauseN "secmst_seniority" sh.2.2.2.2.2 else "")

/-! ## AggregateStatsEngine

Embedding of the two StatsBar queries (StatsBar.jsx lines 109-151) over the
filtered rows, with standard SQL aggregate semantics: `COUNT(DISTINCT col)`
drops NULLs, `COALESCE` substitutes its default, `SUM`/`AVG` are exact over
the modelled rationals. -/

/-- A filtered trade row as the stats queries see it. -/
structure SRow where
  side : String
  dealer : Option String
  isin : Option String
  volume : ℚ
  price : ℚ
  tradeDate : String
  deriving DecidableEq, Repr

/-- The `COALESCE(counter_party, 'Unknown Dealer')` expression. -/
def coalesceDealer (r : SRow) : String := r.dealer.getD "Unknown Dealer"

/-- Number of distinct values in a list. -/
def distinctCount (l : List String) : ℕ := l.dedup.length

/-- SQL `MIN` over the date strings of a row set (`none` when empty). -/
def sqlMinDate (rows : List SRow) : Option String :=
  rows.foldl
    (fun acc r =>
      match acc with
      | none => some r.tradeDate
      | some a => some (if r.tradeDate < a then r.tradeDate else a))
    none

/-- SQL `MAX` over the date strings of a row set (`none` when empty). -/
def sqlMaxDate (rows : List SRow) : Option String :=
  rows.foldl
    (fun acc r =>
      match acc with
      | none => some r.tradeDate
      | some a => some (if a < r.tradeDate then r.tradeDate else a))
    none

/-- One group of the per-side query (`GROUP BY side`). -/
structure SideStats where
  trades : ℕ
  volume : ℚ
  value : ℚ
  isins : ℕ
  dealers : ℕ
  avgSize : ℚ
  deriving DecidableEq, Repr

/-- Embedding of the per-side query: `COUNT(*)`, `SUM(size_in_eur_v2)`,
`SUM(size_in_eur_v2 * price * 0.01)`, `COUNT(DISTINCT isin)`,
`COUNT(DISTINCT counter_party)` (NULL dealers dropped, no COALESCE in the
source), `AVG(size_in_eur_v2)`; `none` when the side has no rows (the
source then falls back to `{}`). -/
def statsForSide (rows : List SRow) (s : String) : Option SideStats :=
  let sub := rows.filter fun r => r.side == s
  if sub.isEmpty then none
  else
    some
      { trades := sub.length
        volume := (sub.map fun r => r.volume).sum
        value := (sub.map fun r => r.volume * r.price * (1 / 100)).sum
        isins := distinctCount (sub.filterMap fun r => r.isin)
        dealers := distinctCount (sub.filterMap fun r => r.dealer)
        avgSize := (sub.map fun r => r.volume).sum / sub.length }

/-- The whole-period totals row. -/
structure TotalStats where
  trades : ℕ
  volume : ℚ
  value : ℚ
  isins : ℕ
  dealers : ℕ
  avgSize : ℚ
  minDate : Option String
  maxDate : Option String
  deriving DecidableEq, Repr

/-- Embedding of the totals query: as per side but over all rows, with
`COUNT(DISTINCT COALESCE(counter_party, 'Unknown Dealer'))` for the dealer
count, plus `MIN(trade_date)` and `MAX(trade_date)`. -/
def statsTotals (rows : List SRow) : TotalStats :=
  { trades := rows.length
    volume := (rows.map fun r => r.volume).sum
    value := (rows.map fun r => r.volume * r.price * (1 / 100)).sum
    isins := distinctCount (rows.filterMap fun r => r.isin)
    dealers := distinctCount (rows.map coalesceDealer)
    avgSize := (rows.map fun r => r.volume).sum / rows.length
    minDate := sqlMinDate rows
    maxDate := sqlMaxDate rows }

/-! ## RankingEngine: per-month ranks (`buildMonthRanks`)

Embedding of `buildMonthRanks` (part_003 lines 1122-1138): rows arrive from
the monthly query, already grouped (`GROUP BY month, counter_party`) and
ordered; the function groups them by month, sorts each month's dealers by
volume descending with JS's stable sort, and assigns ranks `i + 1`. -/

/-- A row of the monthly ranking query. -/
structure MRow where
  month : String
  dealer : String
  volume : ℚ
  deriving DecidableEq, Repr

/-- A dealer-volume pair pushed into a month's list. -/
structure DV where
  dealer : String
  volume : ℚ
  deriving DecidableEq, Repr

/-- Descending-by-volume order used by `sort((a, b) => b.volume - a.volume)`. -/
def volGE (a b : DV) : Prop := b.volume ≤ a.volume

instance : DecidableRel volGE := fun a b => inferInstanceAs (Decidable (b.volume ≤ a.volume))

instance : IsTotal DV volGE := ⟨fun a b => le_total b.volume a.volume⟩

instance : IsTrans DV volGE := ⟨fun _ _ _ h1 h2 => le_trans h2 h1⟩

/-- A month's dealers sorted by volume descending; JS sort is stable, so
tied volumes keep their query-result order, realised by insertion sort. -/
def sortVolDesc (l : List DV) : List DV := List.insertionSort volGE l

/-- Push one query row onto its month's list (`byMonth[row.month].push`). -/
def pushMonth (bm : List (String × List DV)) (r : MRow) : List (String × List DV) :=
  oset bm r.month ((olook bm r.month).getD [] ++ [⟨r.dealer, r.volume⟩])

/-- The `byMonth` grouping of the query rows. -/
def byMonthOf (rows : List MRow) : List (String × List DV) :=
  rows.foldl pushMonth []

/-- The per-dealer rank record stored in `result[month][dealer]`. -/
structure RankInfo where
  rank : ℕ
  volume : ℚ
  deriving DecidableEq, Repr

/-- `dealers.forEach((d, i) => result[month][d.dealer] = { rank: i + 1,
volume: d.volume })` over the sorted list. -/
def assignRanks (l : List DV) : List (String × RankInfo) :=
  objOfList (l.enum.map fun p => (p.2.dealer, ⟨p.1 + 1, p.2.volume⟩))

/-- Embedding of `buildMonthRanks`: per month, ranks assigned on the
volume-descending stable sort of that month's dealers. -/
def buildMonthRanks (rows : List MRow) : List (String × List (String × RankInfo)) :=
  (byMonthOf rows).map fun p => (p.1, assignRanks (sortVolDesc p.2))

/-- The rank of a dealer in a month (`ranks[month]?.[dealer]?.rank || null`;
ranks are at least 1, so `|| null` is exactly `Option.map`). -/
def rankOf (rows : List MRow) (mo d : String) : Option ℕ :=
  ((olook (buildMonthRanks rows) mo).bind fun mm => olook mm d).map fun i => i.rank

/-- The volume of a dealer in a month (`info?.volume || 0`). -/
def volOf (rows : List MRow) (mo d : String) : ℚ :=
  (((olook (buildMonthRanks rows) mo).bind fun mm => olook mm d).map fun i => i.volume).getD 0

/-! ## ComparisonEngine

Embedding of the `tableData` memo of `DealerComparisonChart` (part_003
lines 1173-1249).  The two scope queries return rows already grouped per
dealer and ordered by volume descending; ranks are the 1-based positions in
those lists.  Nullable JS row fields are `Option`: the source stores the
number `0`, not `null`, for a missing side's percentage and volume. -/

/-- One row of a scope query (`GROUP BY counter_party ORDER BY totalVolume
DESC`). -/
structure GRow where
  name : String
  totalTransactions : ℕ
  totalVolume : ℚ
  deriving DecidableEq, Repr

/-- Total volume of a scope result (`reduce((s, g) => s + g.totalVolume, 0)`). -/
def totalVolumeOf (l : List GRow) : ℚ := (l.map fun g => g.totalVolume).sum

/-- The percentage formula `total > 0 ? vol / total * 100 : 0`. -/
def pctOf (vol total : ℚ) : ℚ := if 0 < total then vol / total * 100 else 0

/-- The lookup record of `clientMap` / `marketMap`. -/
structure REntry where
  rank : ℕ
  vol : ℚ
  pct : ℚ
  trades : ℕ
  deriving DecidableEq, Repr

/-- `data.forEach((g, i) => map[g.name] = { rank: i + 1, vol, pct, trades })`. -/
def rankMapOf (l : List GRow) (total : ℚ) : List (String × REntry) :=
  objOfList (l.enum.map fun p =>
    (p.2.name, ⟨p.1 + 1, p.2.totalVolume, pctOf p.2.totalVolume total, p.2.totalTransactions⟩))

/-- One merged comparison row.  Fields that the source may set to `null`
are `Option`; note `marketPct: m?.pct || 0` and `clientPct` always store a
number. -/
structure CompRow where
  name : String
  clientRank : Option ℕ
  clientPct : Option ℚ
  clientVol : ℚ
  clientTrades : ℕ
  marketRank : Option ℕ
  marketPct : Option ℚ
  marketVol : ℚ
  marketTrades : ℕ
  rankDelta : Option ℤ
  gap : ℚ
  deriving DecidableEq, Repr

/-- A merged row for a dealer of the client result: market annotations when
the dealer is also in the market map, else `null` rank and delta but the
number `0` for percentage, volume and trades. -/
def mkClientRow (cmap mmap : List (String × REntry)) (g : GRow) : CompRow :=
  let c := (olook cmap g.name).getD ⟨0, 0, 0, 0⟩
  match olook mmap g.name with
  | some m =>
      ⟨g.name, some c.rank, some c.pct, c.vol, c.trades, some m.rank, some m.pct, m.vol,
        m.trades, some ((m.rank : ℤ) - (c.rank : ℤ)), c.pct - m.pct⟩
  | none =>
      ⟨g.name, some c.rank, some c.pct, c.vol, c.trades, none, some 0, 0, 0, none, c.pct - 0⟩

/-- A merged row for a market-only dealer: `null` client rank and delta,
the number `0` for client percentage, volume and trades, gap `-m.pct`. -/
def mkMarketRow (mmap : List (String × REntry)) (g : GRow) : CompRow :=
  let m := (olook mmap g.name).getD ⟨0, 0, 0, 0⟩
  ⟨g.name, none, some 0, 0, 0, some m.rank, some m.pct, m.vol, m.trades, none, -m.pct⟩

/-- The merge loops: every client dealer in client order, then every
market dealer whose name was not seen in the client loop, in market order. -/
def mergedOf (clientData marketData : List GRow) : List CompRow :=
  let cmap := rankMapOf clientData (totalVolumeOf clientData)
  let mmap := rankMapOf marketData (totalVolumeOf marketData)
  clientData.map (mkClientRow cmap mmap) ++
    (marketData.filter fun g => !decide (g.name ∈ clientData.map GRow.name)).map
      (mkMarketRow mmap)

/-- The memo's full result. -/
structure CompResult where
  tableData : List CompRow
  clientTotal : ℚ
  marketTotal : ℚ
  deriving DecidableEq, Repr

/-- Embedding of the `tableData` memo: empty result when either scope's
rows are empty, otherwise the merge truncated to the first `topN` rows. -/
def comparisonResult (clientData marketData : List GRow) (topN : ℕ) : CompResult :=
  if clientData = [] ∨ marketData = [] then ⟨[], 0, 0⟩
  else
    ⟨(mergedOf clientData marketData).take topN, totalVolumeOf clientData,
      totalVolumeOf marketData⟩

/-! ## RollingWindowRankTracker

Embedding of `generateLast6Months` (part_003 lines 937-953) and the
monthly-points construction (lines 1143-1158).  JS month arithmetic
`new Date(y, m0, 1)` normalizes an out-of-range zero-based month index by
floor division, which is Lean's `Int` division by a positive divisor. -/

/-- One month of the trailing window.  `key`, `fromDate` and `toDate` are
the strings the source builds; `monthIdx` is the absolute month number
`year * 12 + zero-based month` recording chronology; the locale-formatted
`label` is presentational and not modelled. -/
structure MonthSpec where
  key : String
  fromDate : String
  toDate : String
  monthIdx : ℤ
  deriving DecidableEq, Repr

/-- The `"YYYY-MM"` key of a normalized year and zero-based month. -/
def monthKeyStr (y m0 : ℤ) : String := toString y ++ "-" ++ pad2 (m0 + 1)

/-- The month spec of `new Date(y, m0big, 1)` for a possibly out-of-range
zero-based month index. -/
def mkMonthSpec (y m0big : ℤ) : MonthSpec :=
  let ny := y + m0big / 12
  let nm0 := m0big % 12
  let nny := y + (m0big + 1) / 12
  let nnm0 := (m0big + 1) % 12
  ⟨monthKeyStr ny nm0, monthKeyStr ny nm0 ++ "-01", monthKeyStr nny nnm0 ++ "-01",
    ny * 12 + nm0⟩

/-- Embedding of `generateLast6Months(dateTo)`: `dateTo` is exclusive, so
the window ends at `dateTo - 1` day; one spec per `i = 5 .. 0` for the
month `end.month - i`, oldest first. -/
def generateLast6Months (yTo mTo dTo : ℤ) : List MonthSpec :=
  let endZ := daysFromCivil yTo mTo dTo - 1
  let e := civilFromDays endZ
  [5, 4, 3, 2, 1, 0].map fun i => mkMonthSpec e.1 (e.2.1 - 1 - i)

/-- One point of the monthly series for the selected dealer. -/
structure RankPoint where
  month : String
  clientRank : Option ℕ
  marketRank : Option ℕ
  delta : Option ℤ
  clientVolume : ℚ
  deriving DecidableEq, Repr

/-- Embedding of the `months6.map` building `monthlyData`: per month the
dealer's client and market ranks (null when absent), their delta when both
exist, and the client volume (`cInfo?.volume || 0`). -/
def trackerPoints (months : List MonthSpec) (clientRows marketRows : List MRow)
    (dealer : String) : List RankPoint :=
  months.map fun ms =>
    let cR := rankOf clientRows ms.key dealer
    let mR := rankOf marketRows ms.key dealer
    ⟨ms.key, cR, mR,
      match cR, mR with
      | some a, some b => some ((b : ℤ) - (a : ℤ))
      | _, _ => none,
      volOf clientRows ms.key dealer⟩

/-! ## Lemmas: object primitives -/

/-- Key list of the empty object. -/
theorem okeys_nil {κ : Type} {β : Type} : okeys ([] : List (κ × β)) = [] := rfl

/-- Key list of a cons cell. -/
theorem okeys_cons {κ : Type} {β : Type} (p : κ × β) (m : List (κ × β)) :
    okeys (p :: m) = p.1 :: okeys m := rfl

/-- Reading after writing: the written key returns the new value, others
are unchanged. -/
theorem olook_oset {κ : Type} [DecidableEq κ] {β : Type} (m : List (κ × β)) (k k2 : κ) (v : β) :
    olook (oset m k v) k2 = if k = k2 then some v else olook m k2 := by
  induction m with
  | nil => by_cases h : k = k2 <;> simp [oset, olook, h]
  | cons p rest ih =>
    obtain ⟨k0, v0⟩ := p
    by_cases h0 : k0 = k
    · subst h0
      by_cases h2 : k0 = k2 <;> simp [oset, olook, h2]
    · by_cases h2 : k0 = k2
      · subst h2
        have hk : ¬ k = k0 := fun h => h0 h.symm
        simp [oset, olook, h0, hk]
      · simp [oset, olook, h0, h2, ih]

/-- Reading a bumped map: the bumped key gains `v`, others are unchanged
(with absent keys read as 0). -/
theorem olook_bump_getD {κ : Type} [DecidableEq κ] (m : List (κ × ℚ)) (k k2 : κ) (v : ℚ) :
    (olook (bump m k v) k2).getD 0 =
      (olook m k2).getD 0 + if k = k2 then v else 0 := by
  induction m with
  | nil => by_cases h : k = k2 <;> simp [bump, olook, h]
  | cons p rest ih =>
    obtain ⟨k0, v0⟩ := p
    by_cases h0 : k0 = k
    · subst h0
      by_cases h2 : k0 = k2 <;> simp [bump, olook, h2]
    · by_cases h2 : k0 = k2
      · subst h2
        have hk : ¬ k = k0 := fun h => h0 h.symm
        simp [bump, olook, h0, hk]
      · simp [bump, olook, h0, h2, ih]

/-- A successful read exhibits a member. -/
theorem olook_mem {κ : Type} [DecidableEq κ] {β : Type} {m : List (κ × β)} {k : κ} {v : β}
    (h : olook m k = some v) : (k, v) ∈ m := by
  induction m with
  | nil => simp [olook] at h
  | cons p rest ih =>
    obtain ⟨k0, v0⟩ := p
    by_cases h0 : k0 = k
    · subst h0
      simp [olook] at h
      simp [h]
    · simp [olook, h0] at h
      exact List.mem_cons_of_mem _ (ih h)

/-- A key outside the key list reads as `none`. -/
theorem olook_eq_none {κ : Type} [DecidableEq κ] {β : Type} {m : List (κ × β)} {k : κ}
    (h : k ∉ okeys m) : olook m k = none := by
  induction m with
  | nil => simp [olook]
  | cons p rest ih =>
    obtain ⟨k0, v0⟩ := p
    rw [okeys_cons, List.mem_cons] at h
    push_neg at h
    have h1 : ¬ k0 = k := fun he => h.1 he.symm
    simp [olook, h1, ih h.2]

/-- Members of a written map come from the old map or are the new pair. -/
theorem mem_oset {κ : Type} [DecidableEq κ] {β : Type} {m : List (κ × β)} {k : κ} {v : β}
    {q : κ × β} (h : q ∈ oset m k v) : q ∈ m ∨ q = (k, v) := by
  induction m with
  | nil => simp [oset] at h; simp [h]
  | cons p rest ih =>
    obtain ⟨k0, v0⟩ := p
    by_cases h0 : k0 = k
    · subst h0
      simp [oset] at h
      rcases h with h | h
      · right; simp [h]
      · left; exact List.mem_cons_of_mem _ h
    · simp [oset, h0] at h
      rcases h with h | h
      · left; simp [h]
      · rcases ih h with h1 | h1
        · left; exact List.mem_cons_of_mem _ h1
        · right; exact h1

/-- Members of a bumped map: old entries, the bumped entry, or the fresh
entry. -/
theorem mem_bump {κ : Type} [DecidableEq κ] {m : List (κ × ℚ)} {k : κ} {v : ℚ}
    {q : κ × ℚ} (h : q ∈ bump m k v) :
    q ∈ m ∨ (∃ v0, (k, v0) ∈ m ∧ q = (k, v0 + v)) ∨ q = (k, v) := by
  induction m with
  | nil => simp [bump] at h; simp [h]
  | cons p rest ih =>
    obtain ⟨k0, v0⟩ := p
    by_cases h0 : k0 = k
    · subst h0
      simp [bump] at h
      rcases h with h | h
      · right; left; exact ⟨v0, by simp, by simp [h]⟩
      · left; exact List.mem_cons_of_mem _ h
    · simp [bump, h0] at h
      rcases h with h | h
      · left; simp [h]
      · rcases ih h with h1 | h1 | h1
        · left; exact List.mem_cons_of_mem _ h1
        · right; left
          obtain ⟨w, hw1, hw2⟩ := h1
          exact ⟨w, List.mem_cons_of_mem _ hw1, hw2⟩
        · right; right; exact h1

/-- Writing updates the key list only by possibly appending the new key. -/
theorem okeys_oset {κ : Type} [DecidableEq κ] {β : Type} (m : List (κ × β)) (k : κ) (v : β) :
    okeys (oset m k v) = if k ∈ okeys m then okeys m else okeys m ++ [k] := by
  induction m with
  | nil => simp [oset, okeys]
  | cons p rest ih =>
    obtain ⟨k0, v0⟩ := p
    by_cases h0 : k0 = k
    · subst h0
      simp [oset, okeys]
    · rw [show oset ((k0, v0) :: rest) k v = (k0, v0) :: oset rest k v from by
        simp [oset, h0]]
      rw [okeys_cons, okeys_cons, ih]
      by_cases hm : k ∈ okeys rest
      · simp [hm, List.mem_cons, Ne.symm h0]
      · simp [hm, List.mem_cons, Ne.symm h0]

/-- Bumping updates the key list only by possibly appending the new key. -/
theorem okeys_bump {κ : Type} [DecidableEq κ] (m : List (κ × ℚ)) (k : κ) (v : ℚ) :
    okeys (bump m k v) = if k ∈ okeys m then okeys m else okeys m ++ [k] := by
  induction m with
  | nil => simp [bump, okeys]
  | cons p rest ih =>
    obtain ⟨k0, v0⟩ := p
    by_cases h0 : k0 = k
    · subst h0
      simp [bump, okeys]
    · rw [show bump ((k0, v0) :: rest) k v = (k0, v0) :: bump rest k v from by
        simp [bump, h0]]
      rw [okeys_cons, okeys_cons, ih]
      by_cases hm : k ∈ okeys rest
      · simp [hm, List.mem_cons, Ne.symm h0]
      · simp [hm, List.mem_cons, Ne.symm h0]

/-- Appending a fresh key keeps the key list duplicate-free. -/
theorem nodup_okeys_oset {κ : Type} [DecidableEq κ] {β : Type} {m : List (κ × β)} {k : κ}
    {v : β} (h : (okeys m).Nodup) : (okeys (oset m k v)).Nodup := by
  rw [okeys_oset]
  by_cases hm : k ∈ okeys m
  · simpa [hm] using h
  · rw [if_neg hm, List.nodup_append]
    refine ⟨h, List.nodup_singleton _, ?_⟩
    intro a ha hb
    rw [List.mem_singleton] at hb
    exact hm (hb ▸ ha)

/-- Bumping keeps the key list duplicate-free. -/
theorem nodup_okeys_bump {κ : Type} [DecidableEq κ] {m : List (κ × ℚ)} {k : κ} {v : ℚ}
    (h : (okeys m).Nodup) : (okeys (bump m k v)).Nodup := by
  rw [okeys_bump]
  by_cases hm : k ∈ okeys m
  · simpa [hm] using h
  · rw [if_neg hm, List.nodup_append]
    refine ⟨h, List.nodup_singleton _, ?_⟩
    intro a ha hb
    rw [List.mem_singleton] at hb
    exact hm (hb ▸ ha)

/-- In a duplicate-free map, each member is what its key reads. -/
theorem olook_of_mem_nodup {κ : Type} [DecidableEq κ] {β : Type} {m : List (κ × β)}
    {q : κ × β} (hq : q ∈ m) (h : (okeys m).Nodup) : olook m q.1 = some q.2 := by
  induction m with
  | nil => simp at hq
  | cons p rest ih =>
    obtain ⟨k0, v0⟩ := p
    rw [okeys_cons] at h
    have h1 := List.nodup_cons.mp h
    rcases List.mem_cons.mp hq with he | hm
    · subst he
      simp [olook]
    · have hq1 : q.1 ∈ okeys rest := List.mem_map_of_mem Prod.fst hm
      have hne : ¬ k0 = q.1 := fun he => h1.1 (he.symm ▸ hq1)
      simp [olook, hne]
      exact ih hm h1.2

/-- Writing a fresh key appends the pair. -/
theorem oset_eq_append {κ : Type} [DecidableEq κ] {β : Type} {m : List (κ × β)} {k : κ}
    (v : β) (h : k ∉ okeys m) : oset m k v = m ++ [(k, v)] := by
  induction m with
  | nil => simp [oset]
  | cons p rest ih =>
    obtain ⟨k0, v0⟩ := p
    rw [okeys_cons, List.mem_cons] at h
    push_neg at h
    have h1 : ¬ k0 = k := fun he => h.1 he.symm
    simp [oset, h1, ih h.2]

/-- Folding assignments of fresh, pairwise-distinct keys appends the
entries. -/
theorem foldl_oset_eq {κ : Type} [DecidableEq κ] {β : Type} :
    ∀ (ents acc : List (κ × β)), (okeys acc ++ ents.map Prod.fst).Nodup →
      ents.foldl (fun m p => oset m p.1 p.2) acc = acc ++ ents := by
  intro ents
  induction ents with
  | nil => intro acc _; simp
  | cons p rest ih =>
    intro acc hacc
    obtain ⟨k0, v0⟩ := p
    have hk : k0 ∉ okeys acc := by
      rw [List.nodup_append] at hacc
      intro hmem
      exact hacc.2.2 hmem (by simp)
    have hstep : oset acc k0 v0 = acc ++ [(k0, v0)] := oset_eq_append v0 hk
    have hrest : (okeys (acc ++ [(k0, v0)]) ++ rest.map Prod.fst).Nodup := by
      have hek : okeys (acc ++ [(k0, v0)]) = okeys acc ++ [k0] := by simp [okeys]
      rw [hek, List.append_assoc]
      simp only [List.map_cons] at hacc
      simpa using hacc
    calc List.foldl (fun m p => oset m p.1 p.2) acc ((k0, v0) :: rest)
        = List.foldl (fun m p => oset m p.1 p.2) (acc ++ [(k0, v0)]) rest := by
          simp [List.foldl_cons, hstep]
      _ = (acc ++ [(k0, v0)]) ++ rest := ih (acc ++ [(k0, v0)]) hrest
      _ = acc ++ ((k0, v0) :: rest) := by simp

/-- Assigning entries with pairwise-distinct keys into an empty object
reproduces the entry list. -/
theorem objOfList_eq {κ : Type} [DecidableEq κ] {β : Type} {ents : List (κ × β)}
    (h : (ents.map Prod.fst).Nodup) : objOfList ents = ents := by
  simpa [objOfList] using foldl_oset_eq ents [] (by simpa [okeys] using h)

/-- Pointwise sum split over a mapped list. -/
theorem sum_map_add {α : Type} (l : List α) (f g : α → ℚ) :
    (l.map fun x => f x + g x).sum = (l.map f).sum + (l.map g).sum := by
  induction l with
  | nil => simp
  | cons x xs ih => simp [ih]; ring

/-! ## Lemmas: WeeklyBucketer fold characterization -/

/-- Effect of one row on the `sell` ranking accessor: a `Buy` row of this
week and dealer adds its ranking volume, anything else leaves it unchanged. -/
theorem mapValAt_applyWeekRow_sell (wm : List (String × WeekBucket)) (r : WRow)
    (k d : String) :
    mapValAt (applyWeekRow wm r) k WeekBucket.sell d =
      mapValAt wm k WeekBucket.sell d +
        if weekKeyOf r = k ∧ r.dealer = d ∧ r.side = "Buy" then r.volume else 0 := by
  unfold applyWeekRow mapValAt
  rw [olook_oset]
  by_cases hk : weekKeyOf r = k
  · rw [weekKeyOf] at hk
    rw [if_pos hk]
    by_cases hs : r.side = "Buy"
    · simp only [hs, if_pos rfl, if_true]
      cases holo : olook wm k with
      | some b =>
        rw [hk, holo]
        simp only [Option.getD_some]
        rw [olook_bump_getD]
        by_cases hd : r.dealer = d <;> simp [hd, hk, hs, weekKeyOf]
      | none =>
        rw [hk, holo]
        simp only [Option.getD_none, emptyBucket]
        rw [olook_bump_getD]
        simp only [olook, Option.getD_none]
        by_cases hd : r.dealer = d <;> simp [hd, hk, hs, weekKeyOf]
    · simp only [hs, if_false]
      cases holo : olook wm k with
      | some b =>
        rw [hk, holo]
        simp [hs, weekKeyOf, hk]
      | none =>
        rw [hk, holo]
        simp [hs, weekKeyOf, hk, emptyBucket, olook]
  · rw [weekKeyOf] at hk
    rw [if_neg hk]
    simp [weekKeyOf, hk]

/-- Effect of one row on the `sellDisplay` accessor. -/
theorem mapValAt_applyWeekRow_sellDisplay (wm : List (String × WeekBucket)) (r : WRow)
    (k d : String) :
    mapValAt (applyWeekRow wm r) k WeekBucket.sellDisplay d =
      mapValAt wm k WeekBucket.sellDisplay d +
        if weekKeyOf r = k ∧ r.dealer = d ∧ r.side = "Buy" then r.displayVolume else 0 := by
  unfold applyWeekRow mapValAt
  rw [olook_oset]
  by_cases hk : weekKeyOf r = k
  · rw [weekKeyOf] at hk
    rw [if_pos hk]
    by_cases hs : r.side = "Buy"
    · simp only [hs, if_pos rfl, if_true]
      cases holo : olook wm k with
      | some b =>
        rw [hk, holo]
        simp only [Option.getD_some]
        rw [olook_bump_getD]
        by_cases hd : r.dealer = d <;> simp [hd, hk, hs, weekKeyOf]
      | none =>
        rw [hk, holo]
        simp only [Option.getD_none, emptyBucket]
        rw [olook_bump_getD]
        simp only [olook, Option.getD_none]
        by_cases hd : r.dealer = d <;> simp [hd, hk, hs, weekKeyOf]
    · simp only [hs, if_false]
      cases holo : olook wm k with
      | some b =>
        rw [hk, holo]
        simp [hs, weekKeyOf, hk]
      | none =>
        rw [hk, holo]
        simp [hs, weekKeyOf, hk, emptyBucket, olook]
  · rw [weekKeyOf] at hk
    rw [if_neg hk]
    simp [weekKeyOf, hk]

/-- Effect of one row on the `buy` ranking accessor: a non-`Buy` row of
this week and dealer adds its ranking volume. -/
theorem mapValAt_applyWeekRow_buy (wm : List (String × WeekBucket)) (r : WRow)
    (k d : String) :
    mapValAt (applyWeekRow wm r) k WeekBucket.buy d =
      mapValAt wm k WeekBucket.buy d +
        if weekKeyOf r = k ∧ r.dealer = d ∧ ¬ r.side = "Buy" then r.volume else 0 := by
  unfold applyWeekRow mapValAt
  rw [olook_oset]
  by_cases hk : weekKeyOf r = k
  · rw [weekKeyOf] at hk
    rw [if_pos hk]
    by_cases hs : r.side = "Buy"
    · simp only [hs, if_pos rfl, if_true]
      cases holo : olook wm k with
      | some b =>
        rw [hk, holo]
        simp [hs, weekKeyOf, hk]
      | none =>
        rw [hk, holo]
        simp [hs, weekKeyOf, hk, emptyBucket, olook]
    · simp only [hs, if_false]
      cases holo : olook wm k with
      | some b =>
        rw [hk, holo]
        simp only [Option.getD_some]
        rw [olook_bump_getD]
        by_cases hd : r.dealer = d <;> simp [hd, hk, hs, weekKeyOf]
      | none =>
        rw [hk, holo]
        simp only [Option.getD_none, emptyBucket]
        rw [olook_bump_getD]
        simp only [olook, Option.getD_none]
        by_cases hd : r.dealer = d <;> simp [hd, hk, hs, weekKeyOf]
  · rw [weekKeyOf] at hk
    rw [if_neg hk]
    simp [weekKeyOf, hk]

/-- Effect of one row on the `buyDisplay` accessor. -/
theorem mapValAt_applyWeekRow_buyDisplay (wm : List (String × WeekBucket)) (r : WRow)
    (k d : String) :
    mapValAt (applyWeekRow wm r) k WeekBucket.buyDisplay d =
      mapValAt wm k WeekBucket.buyDisplay d +
        if weekKeyOf r = k ∧ r.dealer = d ∧ ¬ r.side = "Buy" then r.displayVolume else 0 := by
  unfold applyWeekRow mapValAt
  rw [olook_oset]
  by_cases hk : weekKeyOf r = k
  · rw [weekKeyOf] at hk
    rw [if_pos hk]
    by_cases hs : r.side = "Buy"
    · simp only [hs, if_pos rfl, if_true]
      cases holo : olook wm k with
      | some b =>
        rw [hk, holo]
        simp [hs, weekKeyOf, hk]
      | none =>
        rw [hk, holo]
        simp [hs, weekKeyOf, hk, emptyBucket, olook]
    · simp only [hs, if_false]
      cases holo : olook wm k with
      | some b =>
        rw [hk, holo]
        simp only [Option.getD_some]
        rw [olook_bump_getD]
        by_cases hd : r.dealer = d <;> simp [hd, hk, hs, weekKeyOf]
      | none =>
        rw [hk, holo]
        simp only [Option.getD_none, emptyBucket]
        rw [olook_bump_getD]
        simp only [olook, Option.getD_none]
        by_cases hd : r.dealer = d <;> simp [hd, hk, hs, weekKeyOf]
  · rw [weekKeyOf] at hk
    rw [if_neg hk]
    simp [weekKeyOf, hk]

/-- Fold characterization of the `sell` ranking map: what the bucketing
loop accumulates for a week and dealer is the sum of the matching `Buy`
rows' ranking volumes. -/
theorem weekMap_sell_char (rows : List WRow) (k d : String) :
    mapValAt (weekMapOf rows) k WeekBucket.sell d = matchSum rows k d "Buy" WRow.volume := by
  suffices hgen : ∀ (st : List (String × WeekBucket) × List (String × ℚ)),
      mapValAt (rows.foldl weeklyStep st).1 k WeekBucket.sell d =
        mapValAt st.1 k WeekBucket.sell d + matchSum rows k d "Buy" WRow.volume by
    have h0 := hgen ([], [])
    simpa [weekMapOf, bucketState, mapValAt, olook] using h0
  induction rows with
  | nil => intro st; simp [matchSum]
  | cons r rs ih =>
    intro st
    rw [List.foldl_cons]
    rw [ih (weeklyStep st r)]
    show mapValAt (applyWeekRow st.1 r) k WeekBucket.sell d + _ = _
    rw [mapValAt_applyWeekRow_sell]
    have hms : matchSum (r :: rs) k d "Buy" WRow.volume =
        (if weekKeyOf r = k ∧ r.dealer = d ∧ r.side = "Buy" then r.volume else 0) +
          matchSum rs k d "Buy" WRow.volume := by
      simp [matchSum]
    rw [hms]
    ring

/-- Fold characterization of the `sellDisplay` map. -/
theorem weekMap_sellDisplay_char (rows : List WRow) (k d : String) :
    mapValAt (weekMapOf rows) k WeekBucket.sellDisplay d =
      matchSum rows k d "Buy" WRow.displayVolume := by
  suffices hgen : ∀ (st : List (String × WeekBucket) × List (String × ℚ)),
      mapValAt (rows.foldl weeklyStep st).1 k WeekBucket.sellDisplay d =
        mapValAt st.1 k WeekBucket.sellDisplay d +
          matchSum rows k d "Buy" WRow.displayVolume by
    have h0 := hgen ([], [])
    simpa [weekMapOf, bucketState, mapValAt, olook] using h0
  induction rows with
  | nil => intro st; simp [matchSum]
  | cons r rs ih =>
    intro st
    rw [List.foldl_cons]
    rw [ih (weeklyStep st r)]
    show mapValAt (applyWeekRow st.1 r) k WeekBucket.sellDisplay d + _ = _
    rw [mapValAt_applyWeekRow_sellDisplay]
    have hms : matchSum (r :: rs) k d "Buy" WRow.displayVolume =
        (if weekKeyOf r = k ∧ r.dealer = d ∧ r.side = "Buy" then r.displayVolume else 0) +
          matchSum rs k d "Buy" WRow.displayVolume := by
      simp [matchSum]
    rw [hms]
    ring

/-- Fold characterization of the `buy` ranking map: the loop accumulates
the ranking volumes of the matching rows whose side is not `Buy`. -/
theorem weekMap_buy_char (rows : List WRow) (k d : String) :
    mapValAt (weekMapOf rows) k WeekBucket.buy d =
      (rows.map fun r =>
        if weekKeyOf r = k ∧ r.dealer = d ∧ ¬ r.side = "Buy" then r.volume else 0).sum := by
  suffices hgen : ∀ (st : List (String × WeekBucket) × List (String × ℚ)),
      mapValAt (rows.foldl weeklyStep st).1 k WeekBucket.buy d =
        mapValAt st.1 k WeekBucket.buy d +
          (rows.map fun r =>
            if weekKeyOf r = k ∧ r.dealer = d ∧ ¬ r.side = "Buy" then r.volume else 0).sum by
    have h0 := hgen ([], [])
    simpa [weekMapOf, bucketState, mapValAt, olook] using h0
  induction rows with
  | nil => intro st; simp
  | cons r rs ih =>
    intro st
    rw [List.foldl_cons]
    rw [ih (weeklyStep st r)]
    show mapValAt (applyWeekRow st.1 r) k WeekBucket.buy d + _ = _
    rw [mapValAt_applyWeekRow_buy]
    simp only [List.map_cons, List.sum_cons]
    ring

/-- Fold characterization of the `buyDisplay` map. -/
theorem weekMap_buyDisplay_char (rows : List WRow) (k d : String) :
    mapValAt (weekMapOf rows) k WeekBucket.buyDisplay d =
      (rows.map fun r =>
        if weekKeyOf r = k ∧ r.dealer = d ∧ ¬ r.side = "Buy" then r.displayVolume else 0).sum := by
  suffices hgen : ∀ (st : List (String × WeekBucket) × List (String × ℚ)),
      mapValAt (rows.foldl weeklyStep st).1 k WeekBucket.buyDisplay d =
        mapValAt st.1 k WeekBucket.buyDisplay d +
          (rows.map fun r =>
            if weekKeyOf r = k ∧ r.dealer = d ∧ ¬ r.side = "Buy" then r.displayVolume else 0).sum by
    have h0 := hgen ([], [])
    simpa [weekMapOf, bucketState, mapValAt, olook] using h0
  induction rows with
  | nil => intro st; simp
  | cons r rs ih =>
    intro st
    rw [List.foldl_cons]
    rw [ih (weeklyStep st r)]
    show mapValAt (applyWeekRow st.1 r) k WeekBucket.buyDisplay d + _ = _
    rw [mapValAt_applyWeekRow_buyDisplay]
    simp only [List.map_cons, List.sum_cons]
    ring

/-! ## Lemmas: ISO week evaluation -/

/-- `Math.round (x / 7)` on an integer scaled argument is an integer floor
division. -/
theorem jsRound_div_seven (x : ℤ) : jsRound ((x : ℚ) / 7) = (2 * x + 7) / 14 := by
  unfold jsRound
  have h1 : (x : ℚ) / 7 + 1 / 2 = ((2 * x + 7 : ℤ) : ℚ) / ((14 : ℕ) : ℚ) := by
    push_cast
    ring
  rw [h1, Rat.floor_intCast_div_natCast]
  norm_num

/-- The faithful `getISOWeekLabel` agrees with its integer-arithmetic
evaluation form. -/
theorem getISOWeekLabel_eq_int (y m d : ℤ) :
    getISOWeekLabel y m d = getISOWeekLabelInt y m d := by
  unfold getISOWeekLabel getISOWeekLabelInt
  simp only [jsRound_div_seven]

/-! ## Claim theorems -/

/-- C1.  Side-flip contract of the WeeklyBucketer: for rows with a non-null
dealer (the row type's `dealer` is total, as the weekly query filters
`counter_party IS NOT NULL`) and side `Buy` or `Sell`, a `Buy` row is
accumulated - ranking volume and display volume - into the dealer's *sell*
maps of its ISO week's bucket, and a `Sell` row into the *buy* maps; on the
three rows of Scenario A, all in one ISO week, the single resulting bucket
has `sellRanking = {A: 10, B: 30}` and `buyRanking = {A: 5}`. -/
theorem C1_weekly_bucketer_side_flip :
    (∀ (rows : List WRow) (k d : String),
        mapValAt (weekMapOf rows) k WeekBucket.sell d = matchSum rows k d "Buy" WRow.volume
      ∧ mapValAt (weekMapOf rows) k WeekBucket.sellDisplay d =
          matchSum rows k d "Buy" WRow.displayVolume
      ∧ ((∀ r ∈ rows, r.side = "Buy" ∨ r.side = "Sell") →
          mapValAt (weekMapOf rows) k WeekBucket.buy d =
            matchSum rows k d "Sell" WRow.volume
        ∧ mapValAt (weekMapOf rows) k WeekBucket.buyDisplay d =
            matchSum rows k d "Sell" WRow.displayVolume))
  ∧ (weekMapOf
        [⟨2024, 1, 1, "Buy", "A", 10, 10⟩, ⟨2024, 1, 1, "Buy", "B", 30, 30⟩,
          ⟨2024, 1, 1, "Sell", "A", 5, 5⟩]).map (fun p => (p.2.sell, p.2.buy)) =
      [([("A", 10), ("B", 30)], [("A", 5)])] := by
  constructor
  · intro rows k d
    refine ⟨weekMap_sell_char rows k d, weekMap_sellDisplay_char rows k d, ?_⟩
    intro h
    constructor
    · rw [weekMap_buy_char, matchSum]
      congr 1
      refine List.map_congr_left ?_
      intro r hr
      rcases h r hr with hs | hs <;> simp [hs]
    · rw [weekMap_buyDisplay_char, matchSum]
      congr 1
      refine List.map_congr_left ?_
      intro r hr
      rcases h r hr with hs | hs <;> simp [hs]
  · have hW : getISOWeekLabel 2024 1 1 = ⟨"2024-W01", 19723⟩ := by
      rw [getISOWeekLabel_eq_int]
      decide
    simp [weekMapOf, bucketState, weeklyStep, applyWeekRow, hW, olook, oset, bump,
      emptyBucket]

/-- C1 witness: the side-flip equations applied to the Scenario A rows at
the buy-side of dealer A, discharging the Buy-or-Sell hypothesis. -/
theorem C1_weekly_bucketer_side_flip_witness :
    mapValAt
        (weekMapOf
          [⟨2024, 1, 1, "Buy", "A", 10, 10⟩, ⟨2024, 1, 1, "Buy", "B", 30, 30⟩,
            ⟨2024, 1, 1, "Sell", "A", 5, 5⟩]) "2024-W01" WeekBucket.buy "A" =
      matchSum
        [⟨2024, 1, 1, "Buy", "A", 10, 10⟩, ⟨2024, 1, 1, "Buy", "B", 30, 30⟩,
          ⟨2024, 1, 1, "Sell", "A", 5, 5⟩] "2024-W01" "A" "Sell" WRow.volume :=
  ((C1_weekly_bucketer_side_flip.1 _ "2024-W01" "A").2.2 (by decide)).1

/-! ## Lemmas: TopNCollapser arithmetic -/

/-- Over a map with no entry for `d`, the keyed sum vanishes. -/
theorem sum_key_eq_zero {m : List (String × ℚ)} {d : String} (h : d ∉ okeys m) :
    (m.map fun p => if p.1 = d then p.2 else 0).sum = 0 := by
  induction m with
  | nil => simp
  | cons p rest ih =>
    rw [okeys_cons, List.mem_cons] at h
    push_neg at h
    have h1 : ¬ p.1 = d := fun he => h.1 he.symm
    simp [h1, ih h.2]

/-- In a duplicate-free map, the keyed sum is the looked-up value. -/
theorem sum_key_eq_olook {m : List (String × ℚ)} {d : String} (hm : (okeys m).Nodup) :
    (m.map fun p => if p.1 = d then p.2 else 0).sum = (olook m d).getD 0 := by
  induction m with
  | nil => simp [olook]
  | cons p rest ih =>
    obtain ⟨k0, v0⟩ := p
    rw [okeys_cons] at hm
    have h1 := List.nodup_cons.mp hm
    by_cases he : k0 = d
    · subst he
      simp only [List.map_cons, List.sum_cons, olook]
      rw [sum_key_eq_zero h1.1]
      simp
    · simp [olook, he, ih h1.2]

/-- Named-dealer sum as a sum over the map's entries. -/
theorem namedSum_eq_inSum {m : List (String × ℚ)} {top : List String}
    (hm : (okeys m).Nodup) (ht : top.Nodup) :
    namedSum m top = (m.map fun p => if p.1 ∈ top then p.2 else 0).sum := by
  induction top with
  | nil => simp [namedSum]
  | cons d rest ih =>
    have h1 := List.nodup_cons.mp ht
    have hsplit : (m.map fun p => if p.1 ∈ d :: rest then p.2 else 0).sum =
        (m.map fun p => if p.1 = d then p.2 else 0).sum +
          (m.map fun p => if p.1 ∈ rest then p.2 else 0).sum := by
      rw [← sum_map_add]
      congr 1
      refine List.map_congr_left ?_
      intro p _
      by_cases hpd : p.1 = d
      · rw [hpd]
        have hdr : d ∉ rest := h1.1
        simp [hdr]
      · simp [hpd, List.mem_cons]
    rw [hsplit, sum_key_eq_olook hm, ← ih h1.2]
    simp [namedSum]

/-- The total of a map splits into named and other sums. -/
theorem totalSum_split (m : List (String × ℚ)) (top : List String) :
    totalSum m = (m.map fun p => if p.1 ∈ top then p.2 else 0).sum + otherSum m top := by
  unfold totalSum otherSum
  rw [← sum_map_add]
  congr 1
  refine List.map_congr_left ?_
  intro p _
  by_cases hp : p.1 ∈ top <;> simp [hp]

/-- The other-dealers sum is nonnegative over a nonnegative map. -/
theorem otherSum_nonneg {m : List (String × ℚ)} {top : List String}
    (h : ∀ p ∈ m, 0 ≤ p.2) : 0 ≤ otherSum m top := by
  refine List.sum_nonneg ?_
  intro x hx
  rw [List.mem_map] at hx
  obtain ⟨p, hp, he⟩ := hx
  subst he
  by_cases hpt : p.1 ∈ top
  · simp [hpt]
  · simpa [hpt] using h p hp

/-- The collapse identity over a duplicate-free nonnegative map: the other
sum is the total minus the named sum, and it is nonnegative. -/
theorem otherSum_eq_total_sub_named {m : List (String × ℚ)} {top : List String}
    (hm : (okeys m).Nodup) (ht : top.Nodup) :
    otherSum m top = totalSum m - namedSum m top := by
  rw [totalSum_split m top, namedSum_eq_inSum hm ht]
  ring

/-! ## Lemmas: weekMap invariants -/

/-- Every bucket of the week map has duplicate-free dealer keys in each of
its four maps. -/
theorem weekMap_nodup_keys (rows : List WRow) :
    ∀ p ∈ weekMapOf rows, (okeys p.2.buy).Nodup ∧ (okeys p.2.sell).Nodup ∧
      (okeys p.2.buyDisplay).Nodup ∧ (okeys p.2.sellDisplay).Nodup := by
  suffices hgen : ∀ (st : List (String × WeekBucket) × List (String × ℚ)),
      (∀ p ∈ st.1, (okeys p.2.buy).Nodup ∧ (okeys p.2.sell).Nodup ∧
        (okeys p.2.buyDisplay).Nodup ∧ (okeys p.2.sellDisplay).Nodup) →
      ∀ p ∈ (rows.foldl weeklyStep st).1, (okeys p.2.buy).Nodup ∧ (okeys p.2.sell).Nodup ∧
        (okeys p.2.buyDisplay).Nodup ∧ (okeys p.2.sellDisplay).Nodup by
    exact hgen ([], []) (by simp)
  induction rows with
  | nil => intro st h; simpa using h
  | cons r rs ih =>
    intro st h
    rw [List.foldl_cons]
    refine ih (weeklyStep st r) ?_
    intro p hp
    have hb0 : (okeys ((olook st.1 (weekKeyOf r)).getD
        (emptyBucket (getISOWeekLabel r.y r.m r.d).labelDay)).buy).Nodup ∧
        (okeys ((olook st.1 (weekKeyOf r)).getD
          (emptyBucket (getISOWeekLabel r.y r.m r.d).labelDay)).sell).Nodup ∧
        (okeys ((olook st.1 (weekKeyOf r)).getD
          (emptyBucket (getISOWeekLabel r.y r.m r.d).labelDay)).buyDisplay).Nodup ∧
        (okeys ((olook st.1 (weekKeyOf r)).getD
          (emptyBucket (getISOWeekLabel r.y r.m r.d).labelDay)).sellDisplay).Nodup := by
      cases holo : olook st.1 (weekKeyOf r) with
      | some b =>
        simpa using h (weekKeyOf r, b) (olook_mem holo)
      | none => simp [emptyBucket, okeys]
    rcases mem_oset hp with hold | hnew
    · exact h p hold
    · subst hnew
      by_cases hs : r.side = "Buy" <;>
        simp only [weeklyStep, applyWeekRow, weekKeyOf, hs, if_true, if_false,
          reduceIte] at hb0 ⊢
      · exact ⟨hb0.1, nodup_okeys_bump hb0.2.1, hb0.2.2.1, nodup_okeys_bump hb0.2.2.2⟩
      · exact ⟨nodup_okeys_bump hb0.1, hb0.2.1, nodup_okeys_bump hb0.2.2.1, hb0.2.2.2⟩

/-- With nonnegative display volumes, every display entry of every bucket
is nonnegative. -/
theorem weekMap_display_nonneg (rows : List WRow) (hv : ∀ r ∈ rows, 0 ≤ r.displayVolume) :
    ∀ p ∈ weekMapOf rows, (∀ q ∈ p.2.buyDisplay, 0 ≤ q.2) ∧
      (∀ q ∈ p.2.sellDisplay, 0 ≤ q.2) := by
  suffices hgen : ∀ (rs : List WRow) (st : List (String × WeekBucket) × List (String × ℚ)),
      (∀ r ∈ rs, 0 ≤ r.displayVolume) →
      (∀ p ∈ st.1, (∀ q ∈ p.2.buyDisplay, 0 ≤ q.2) ∧ (∀ q ∈ p.2.sellDisplay, 0 ≤ q.2)) →
      ∀ p ∈ (rs.foldl weeklyStep st).1,
        (∀ q ∈ p.2.buyDisplay, 0 ≤ q.2) ∧ (∀ q ∈ p.2.sellDisplay, 0 ≤ q.2) by
    exact hgen rows ([], []) hv (by simp)
  intro rs
  induction rs with
  | nil => intro st _ h; simpa using h
  | cons r rs2 ih =>
    intro st hv2 h
    rw [List.foldl_cons]
    refine ih (weeklyStep st r) (fun x hx => hv2 x (List.mem_cons_of_mem _ hx)) ?_
    have hrv : 0 ≤ r.displayVolume := hv2 r (by simp)
    intro p hp
    have hb0 : (∀ q ∈ ((olook st.1 (weekKeyOf r)).getD
        (emptyBucket (getISOWeekLabel r.y r.m r.d).labelDay)).buyDisplay, 0 ≤ q.2) ∧
        (∀ q ∈ ((olook st.1 (weekKeyOf r)).getD
          (emptyBucket (getISOWeekLabel r.y r.m r.d).labelDay)).sellDisplay, 0 ≤ q.2) := by
      cases holo : olook st.1 (weekKeyOf r) with
      | some b => simpa using h (weekKeyOf r, b) (olook_mem holo)
      | none => simp [emptyBucket]
    have hbump : ∀ (m : List (String × ℚ)), (∀ q ∈ m, 0 ≤ q.2) →
        ∀ q ∈ bump m r.dealer r.displayVolume, 0 ≤ q.2 := by
      intro m hm q hq
      rcases mem_bump hq with h1 | h1 | h1
      · exact hm q h1
      · obtain ⟨v0, hv0, he⟩ := h1
        rw [he]
        exact add_nonneg (hm (r.dealer, v0) hv0) hrv
      · rw [h1]
        exact hrv
    rcases mem_oset hp with hold | hnew
    · exact h p hold
    · subst hnew
      by_cases hs : r.side = "Buy" <;>
        simp only [weeklyStep, applyWeekRow, weekKeyOf, hs, if_true, if_false,
          reduceIte] at hb0 ⊢
      · exact ⟨hb0.1, hbump _ hb0.2⟩
      · exact ⟨hbump _ hb0.1, hb0.2⟩

/-- The global ranking-totals map has duplicate-free dealer keys. -/
theorem globalRankTotals_nodup (rows : List WRow) :
    (okeys (globalRankTotals rows)).Nodup := by
  suffices hgen : ∀ (rs : List WRow) (st : List (String × WeekBucket) × List (String × ℚ)),
      (okeys st.2).Nodup → (okeys (rs.foldl weeklyStep st).2).Nodup by
    exact hgen rows ([], []) (by simp [okeys])
  intro rs
  induction rs with
  | nil => intro st h; simpa using h
  | cons r rs2 ih =>
    intro st h
    rw [List.foldl_cons]
    exact ih (weeklyStep st r) (nodup_okeys_bump h)

/-- The named top-`n` dealer list has no duplicates. -/
theorem topDealers_nodup (rows : List WRow) (n : ℕ) : (topDealers rows n).Nodup := by
  have h1 : ((sortPairsDesc (globalRankTotals rows)).map Prod.fst).Nodup := by
    have hperm : (sortPairsDesc (globalRankTotals rows)).Perm (globalRankTotals rows) :=
      List.perm_insertionSort totalsGE _
    exact ((hperm.map Prod.fst).nodup_iff).mpr (globalRankTotals_nodup rows)
  unfold topDealers topDealersOfTotals
  rw [List.map_take]
  exact (List.take_sublist n _).nodup h1

/-- C2.  TopNCollapser: per bucket and side, the synthetic
"All Other Dealers" accumulator equals the bucket's total minus the sum of
the named top-N dealers' values and is never negative (display volumes
being nonnegative); top-N membership is a function of the dealers' total
ranking volumes across all buckets alone.  The source fixes `N = 10`; the
statement holds for the `N`-generalized collapse, hence for 10. -/
theorem C2_topn_collapser_remainder :
    (∀ (rows : List WRow) (n : ℕ) (k : String) (b : WeekBucket),
        (∀ r ∈ rows, 0 ≤ r.displayVolume) →
        olook (weekMapOf rows) k = some b →
          otherSum b.buyDisplay (topDealers rows n) =
              totalSum b.buyDisplay - namedSum b.buyDisplay (topDealers rows n)
          ∧ 0 ≤ otherSum b.buyDisplay (topDealers rows n)
          ∧ otherSum b.sellDisplay (topDealers rows n) =
              totalSum b.sellDisplay - namedSum b.sellDisplay (topDealers rows n)
          ∧ 0 ≤ otherSum b.sellDisplay (topDealers rows n))
  ∧ (∀ (rows rows2 : List WRow) (n : ℕ),
      globalRankTotals rows = globalRankTotals rows2 →
        topDealers rows n = topDealers rows2 n) := by
  constructor
  · intro rows n k b hv holo
    have hmem : (k, b) ∈ weekMapOf rows := olook_mem holo
    have hnd := weekMap_nodup_keys rows (k, b) hmem
    have hnn := weekMap_display_nonneg rows hv (k, b) hmem
    have htn := topDealers_nodup rows n
    exact ⟨otherSum_eq_total_sub_named hnd.2.2.1 htn, otherSum_nonneg hnn.1,
      otherSum_eq_total_sub_named hnd.2.2.2 htn, otherSum_nonneg hnn.2⟩
  · intro rows rows2 n h
    unfold topDealers
    rw [h]

/-- C2 witness: the collapse identity applied at the Scenario A rows,
`N = 10`, and the single resulting bucket, discharging both hypotheses. -/
theorem C2_topn_collapser_remainder_witness :
    otherSum [("A", (10 : ℚ)), ("B", 30)]
        (topDealers
          [⟨2024, 1, 1, "Buy", "A", 10, 10⟩, ⟨2024, 1, 1, "Buy", "B", 30, 30⟩,
            ⟨2024, 1, 1, "Sell", "A", 5, 5⟩] 10) =
      totalSum [("A", (10 : ℚ)), ("B", 30)] -
        namedSum [("A", (10 : ℚ)), ("B", 30)]
          (topDealers
            [⟨2024, 1, 1, "Buy", "A", 10, 10⟩, ⟨2024, 1, 1, "Buy", "B", 30, 30⟩,
              ⟨2024, 1, 1, "Sell", "A", 5, 5⟩] 10) := by
  have happ := C2_topn_collapser_remainder.1
    [⟨2024, 1, 1, "Buy", "A", 10, 10⟩, ⟨2024, 1, 1, "Buy", "B", 30, 30⟩,
      ⟨2024, 1, 1, "Sell", "A", 5, 5⟩] 10 "2024-W01"
    ⟨19723, [("A", 5)], [("A", 10), ("B", 30)], [("A", 5)], [("A", 10), ("B", 30)]⟩
    (by decide)
    (by
      have hW : getISOWeekLabel 2024 1 1 = ⟨"2024-W01", 19723⟩ := by
        rw [getISOWeekLabel_eq_int]
        decide
      simp [weekMapOf, bucketState, weeklyStep, applyWeekRow, hW, olook, oset, bump,
        emptyBucket])
  exact happ.2.2.1

/-! ## Lemmas: FilterCompiler -/

/-- Placeholder count distributes over string concatenation. -/
theorem qcount_append (a b : String) : qcount (a ++ b) = qcount a + qcount b := by
  simp [qcount, String.data_append, List.count_append]

/-- The comma-joined placeholder list has one `?` per selected value. -/
theorem qcount_joinComma_qs : ∀ (vals : List String),
    qcount (joinComma (vals.map fun _ => "?")) = vals.length := by
  intro vals
  induction vals with
  | nil => decide
  | cons x xs ih =>
    cases xs with
    | nil =>
      show qcount (joinComma ["?"]) = 1
      decide
    | cons y ys =>
      show qcount ("?" ++ ", " ++ joinComma ((y :: ys).map fun _ => "?")) =
        (x :: y :: ys).length
      rw [qcount_append, qcount_append, ih]
      have e1 : qcount "?" = 1 := by decide
      have e2 : qcount ", " = 0 := by decide
      rw [e1, e2]
      simp only [List.length_cons]
      omega

/-- Placeholder count of an `IN` chunk over a placeholder-free column. -/
theorem qcount_inClause (col : String) (vals : List String) (hcol : qcount col = 0) :
    qcount (inClause col vals) = vals.length := by
  unfold inClause
  rw [qcount_append, qcount_append, qcount_append, qcount_append, qcount_joinComma_qs,
    hcol]
  have h1 : qcount " AND " = 0 := by decide
  have h2 : qcount " IN (" = 0 := by decide
  have h3 : qcount ")" = 0 := by decide
  rw [h1, h2, h3]
  omega

/-- The string-and-parameters compiler agrees chunk for chunk with the
structured condition list, for the part_003 variant. -/
theorem buildExtraFilters_conds (f : Filters) (ctx : String) :
    (buildExtraFilters f ctx).sql = sqlOfConds (extraConds f ctx) ∧
      (buildExtraFilters f ctx).params = paramsOfConds (extraConds f ctx) := by
  unfold buildExtraFilters extraConds
  rcases hcid : activeClientId f with _ | c <;>
    by_cases hctx : ctx = "client" <;>
    cases hu : f.includeUnknown <;>
    by_cases hp : f.products = [] <;>
    by_cases hs : f.sectors = [] <;>
    by_cases hr : f.regions = [] <;>
    by_cases hsen : f.seniorities = [] <;>
    simp [hcid, hctx, hu, hp, hs, hr, hsen, sqlOfConds, paramsOfConds, condSql,
      condParams, String.append_assoc, String.empty_append, String.append_empty]

/-- The string-and-parameters compiler agrees chunk for chunk with the
structured condition list, for the StatsBar variant. -/
theorem buildExtraFiltersStats_conds (f : Filters) (ctx : String) :
    (buildExtraFiltersStats f ctx).sql = sqlOfConds (extraCondsStats f ctx) ∧
      (buildExtraFiltersStats f ctx).params = paramsOfConds (extraCondsStats f ctx) := by
  unfold buildExtraFiltersStats extraCondsStats
  rcases hcid : activeClientId f with _ | c <;>
    by_cases hctx : ctx = "client" <;>
    by_cases hp : f.products = [] <;>
    by_cases hs : f.sectors = [] <;>
    by_cases hr : f.regions = [] <;>
    by_cases hsen : f.seniorities = [] <;>
    simp [hcid, hctx, hp, hs, hr, hsen, sqlOfConds, paramsOfConds, condSql,
      condParams, String.append_assoc, String.empty_append, String.append_empty]

/-- Membership in a guarded singleton block with empty alternative. -/
theorem mem_ite_nil {α : Type} {c : Prop} [Decidable c] {l : List α} {a : α}
    (h : a ∈ (if c then l else [])) : c ∧ a ∈ l := by
  by_cases hc : c
  · rw [if_pos hc] at h
    exact ⟨hc, h⟩
  · rw [if_neg hc] at h
    simp at h

/-- Membership in a guarded block with empty consequence. -/
theorem mem_ite_nil_left {α : Type} {c : Prop} [Decidable c] {l : List α} {a : α}
    (h : a ∈ (if c then [] else l)) : ¬ c ∧ a ∈ l := by
  by_cases hc : c
  · rw [if_pos hc] at h
    simp at h
  · rw [if_neg hc] at h
    exact ⟨hc, h⟩

/-- A client-identity condition is emitted only in client context with the
configured id as its value. -/
theorem clientEq_mem_extraConds {f : Filters} {ctx v : String}
    (hv : FilterCond.clientEq v ∈ extraConds f ctx) :
    ctx = "client" ∧ activeClientId f = some v := by
  unfold extraConds at hv
  rcases List.mem_append.mp hv with hv | hv
  rotate_left
  · obtain ⟨_, hv⟩ := mem_ite_nil hv
    simp at hv
  rcases List.mem_append.mp hv with hv | hv
  rotate_left
  · obtain ⟨_, hv⟩ := mem_ite_nil hv
    simp at hv
  rcases List.mem_append.mp hv with hv | hv
  rotate_left
  · obtain ⟨_, hv⟩ := mem_ite_nil hv
    simp at hv
  rcases List.mem_append.mp hv with hv | hv
  rotate_left
  · obtain ⟨_, hv⟩ := mem_ite_nil hv
    simp at hv
  rcases List.mem_append.mp hv with hv | hv
  rotate_left
  · obtain ⟨_, hv⟩ := mem_ite_nil_left hv
    simp at hv
  · obtain ⟨hctx, hv⟩ := mem_ite_nil hv
    refine ⟨hctx, ?_⟩
    cases hcid : activeClientId f with
    | some c =>
      rw [hcid] at hv
      simp at hv
      rw [hv]
    | none =>
      rw [hcid] at hv
      simp at hv

/-- The unknown-dealer exclusion is emitted exactly when unknown dealers
are not included. -/
theorem unknownExclusion_mem_extraConds {f : Filters} {ctx : String} :
    FilterCond.unknownExclusion ∈ extraConds f ctx ↔ f.includeUnknown = false := by
  constructor
  · intro hv
    unfold extraConds at hv
    rcases List.mem_append.mp hv with hv | hv
    rotate_left
    · obtain ⟨_, hv⟩ := mem_ite_nil hv
      simp at hv
    rcases List.mem_append.mp hv with hv | hv
    rotate_left
    · obtain ⟨_, hv⟩ := mem_ite_nil hv
      simp at hv
    rcases List.mem_append.mp hv with hv | hv
    rotate_left
    · obtain ⟨_, hv⟩ := mem_ite_nil hv
      simp at hv
    rcases List.mem_append.mp hv with hv | hv
    rotate_left
    · obtain ⟨_, hv⟩ := mem_ite_nil hv
      simp at hv
    rcases List.mem_append.mp hv with hv | hv
    · obtain ⟨_, hv⟩ := mem_ite_nil hv
      cases hcid : activeClientId f with
      | some c => rw [hcid] at hv; simp at hv
      | none => rw [hcid] at hv; simp at hv
    · obtain ⟨hu, _⟩ := mem_ite_nil_left hv
      simpa using hu
  · intro hu
    unfold extraConds
    rw [hu]
    simp

/-- Every emitted `IN` condition carries a non-empty selection. -/
theorem inCond_mem_extraConds {f : Filters} {ctx col : String} {vals : List String}
    (hv : FilterCond.inCond col vals ∈ extraConds f ctx) : vals ≠ [] := by
  unfold extraConds at hv
  rcases List.mem_append.mp hv with hv | hv
  rotate_left
  · obtain ⟨hg, hv⟩ := mem_ite_nil hv
    simp at hv
    rw [hv.2]
    exact hg
  rcases List.mem_append.mp hv with hv | hv
  rotate_left
  · obtain ⟨hg, hv⟩ := mem_ite_nil hv
    simp at hv
    rw [hv.2]
    exact hg
  rcases List.mem_append.mp hv with hv | hv
  rotate_left
  · obtain ⟨hg, hv⟩ := mem_ite_nil hv
    simp at hv
    rw [hv.2]
    exact hg
  rcases List.mem_append.mp hv with hv | hv
  rotate_left
  · obtain ⟨hg, hv⟩ := mem_ite_nil hv
    simp at hv
    rw [hv.2]
    exact hg
  rcases List.mem_append.mp hv with hv | hv
  · obtain ⟨_, hv⟩ := mem_ite_nil hv
    cases hcid : activeClientId f with
    | some c => rw [hcid] at hv; simp at hv
    | none => rw [hcid] at hv; simp at hv
  · obtain ⟨_, hv⟩ := mem_ite_nil_left hv
    simp at hv

/-- A guarded singleton block is a sublist of its unguarded singleton. -/
theorem ite_singleton_sublist {α : Type} (c : Prop) [Decidable c] (x : α) :
    (if c then [x] else []).Sublist [x] := by
  by_cases hc : c
  · rw [if_pos hc]
  · rw [if_neg hc]
    exact List.nil_sublist _

/-- The extra conditions are a sublist of the fully-enabled master list,
which fixes the emission order. -/
theorem extraConds_sublist (f : Filters) (ctx : String) :
    (extraConds f ctx).Sublist
      [FilterCond.clientEq ((activeClientId f).getD ""), FilterCond.unknownExclusion,
        FilterCond.inCond "secmst_bond_category" f.products,
        FilterCond.inCond "secmst_glimpse_sector" f.sectors,
        FilterCond.inCond "secmst_region" f.regions,
        FilterCond.inCond "secmst_seniority" f.seniorities] := by
  have hb1 : (if ctx = "client" then
      match activeClientId f with
      | some cid => [FilterCond.clientEq cid]
      | none => []
    else []).Sublist [FilterCond.clientEq ((activeClientId f).getD "")] := by
    cases hcid : activeClientId f with
    | some c =>
      by_cases hctx : ctx = "client"
      · simp [hctx]
      · rw [if_neg hctx]
        exact List.nil_sublist _
    | none =>
      by_cases hctx : ctx = "client"
      · simp [hctx]
      · rw [if_neg hctx]
        exact List.nil_sublist _
  have hb2 : (if f.includeUnknown then ([] : List FilterCond) else
      [FilterCond.unknownExclusion]).Sublist [FilterCond.unknownExclusion] := by
    by_cases hu : f.includeUnknown
    · rw [if_pos hu]
      exact List.nil_sublist _
    · rw [if_neg hu]
  have hall := ((((hb1.append hb2).append
      (ite_singleton_sublist (f.products ≠ [])
        (FilterCond.inCond "secmst_bond_category" f.products))).append
      (ite_singleton_sublist (f.sectors ≠ [])
        (FilterCond.inCond "secmst_glimpse_sector" f.sectors))).append
      (ite_singleton_sublist (f.regions ≠ [])
        (FilterCond.inCond "secmst_region" f.regions))).append
      (ite_singleton_sublist (f.seniorities ≠ [])
        (FilterCond.inCond "secmst_seniority" f.seniorities))
  simpa [extraConds] using hall

/-- C7.  FilterCompiler fixed order: the two date bounds are always the
first two conditions and supply the first two parameters; the extra
conditions follow in the fixed order client-identity, unknown-dealer
exclusion, products, sectors, regions, seniorities (each only under its
guard), the compiled SQL and parameters being exactly the rendering of
this condition list. -/
theorem C7_filter_compiler_fixed_order :
    ∀ (f : Filters) (ctx dateFrom dateTo : String),
      (compiledConditions f ctx dateFrom dateTo).take 2 =
          [FilterCond.dateLower dateFrom, FilterCond.dateUpper dateTo]
    ∧ fullParams f ctx dateFrom dateTo =
        dateFrom :: dateTo :: paramsOfConds (extraConds f ctx)
    ∧ (buildExtraFilters f ctx).sql = sqlOfConds (extraConds f ctx)
    ∧ (compiledConditions f ctx dateFrom dateTo).Sublist
        [FilterCond.dateLower dateFrom, FilterCond.dateUpper dateTo,
          FilterCond.clientEq ((activeClientId f).getD ""), FilterCond.unknownExclusion,
          FilterCond.inCond "secmst_bond_category" f.products,
          FilterCond.inCond "secmst_glimpse_sector" f.sectors,
          FilterCond.inCond "secmst_region" f.regions,
          FilterCond.inCond "secmst_seniority" f.seniorities]
    ∧ (∀ v, FilterCond.clientEq v ∈ compiledConditions f ctx dateFrom dateTo →
        ctx = "client" ∧ activeClientId f = some v)
    ∧ (FilterCond.unknownExclusion ∈ compiledConditions f ctx dateFrom dateTo ↔
        f.includeUnknown = false)
    ∧ (∀ col vals,
        FilterCond.inCond col vals ∈ compiledConditions f ctx dateFrom dateTo →
          vals ≠ []) := by
  intro f ctx dateFrom dateTo
  refine ⟨by simp [compiledConditions], ?_, (buildExtraFilters_conds f ctx).1, ?_, ?_, ?_, ?_⟩
  · unfold fullParams
    rw [(buildExtraFilters_conds f ctx).2]
    simp
  · exact (extraConds_sublist f ctx).cons₂ _ |>.cons₂ _
  · intro v hv
    rcases List.mem_cons.mp hv with h | h
    · simp at h
    rcases List.mem_cons.mp h with h | h
    · simp at h
    exact clientEq_mem_extraConds h
  · constructor
    · intro hv
      rcases List.mem_cons.mp hv with h | h
      · simp at h
      rcases List.mem_cons.mp h with h | h
      · simp at h
      exact unknownExclusion_mem_extraConds.mp h
    · intro hu
      exact List.mem_cons_of_mem _ (List.mem_cons_of_mem _
        (unknownExclusion_mem_extraConds.mpr hu))
  · intro col vals hv
    rcases List.mem_cons.mp hv with h | h
    · simp at h
    rcases List.mem_cons.mp h with h | h
    · simp at h
    exact inCond_mem_extraConds h

/-- C7 witness: the fixed-order facts applied at a concrete selection with
the client condition, the unknown exclusion and two `IN` conditions all
present. -/
theorem C7_filter_compiler_fixed_order_witness :
    (compiledConditions ⟨some "Client 1", false, ["IG Credit"], [], ["G10"], []⟩ "client"
        "2024-01-01" "2024-04-01").take 2 =
      [FilterCond.dateLower "2024-01-01", FilterCond.dateUpper "2024-04-01"]
    ∧ FilterCond.unknownExclusion ∈
        compiledConditions ⟨some "Client 1", false, ["IG Credit"], [], ["G10"], []⟩
          "client" "2024-01-01" "2024-04-01" := by
  have h := C7_filter_compiler_fixed_order
    ⟨some "Client 1", false, ["IG Credit"], [], ["G10"], []⟩ "client"
    "2024-01-01" "2024-04-01"
  exact ⟨h.1, h.2.2.2.2.2.1.mpr rfl⟩

/-- Placeholder-parameter balance of the part_003 compiler. -/
theorem qcount_buildExtraFilters (f : Filters) (ctx : String) :
    qcount (buildExtraFilters f ctx).sql = (buildExtraFilters f ctx).params.length := by
  have e0 : qcount "" = 0 := by decide
  have e1 : qcount clientClause = 1 := by decide
  have e2 : qcount unknownClause = 0 := by decide
  have e3 : qcount (inClause "secmst_bond_category" f.products) = f.products.length :=
    qcount_inClause _ _ (by decide)
  have e4 : qcount (inClause "secmst_glimpse_sector" f.sectors) = f.sectors.length :=
    qcount_inClause _ _ (by decide)
  have e5 : qcount (inClause "secmst_region" f.regions) = f.regions.length :=
    qcount_inClause _ _ (by decide)
  have e6 : qcount (inClause "secmst_seniority" f.seniorities) = f.seniorities.length :=
    qcount_inClause _ _ (by decide)
  unfold buildExtraFilters
  rcases hcid : activeClientId f with _ | c <;>
    by_cases hctx : ctx = "client" <;>
    cases hu : f.includeUnknown <;>
    by_cases hp : f.products = [] <;>
    by_cases hs : f.sectors = [] <;>
    by_cases hr : f.regions = [] <;>
    by_cases hsen : f.seniorities = [] <;>
    simp [hcid, hctx, hu, hp, hs, hr, hsen, qcount_append, e0, e1, e2, e3, e4, e5, e6] <;>
    omega

/-- Placeholder-parameter balance of the StatsBar compiler. -/
theorem qcount_buildExtraFiltersStats (f : Filters) (ctx : String) :
    qcount (buildExtraFiltersStats f ctx).sql =
      (buildExtraFiltersStats f ctx).params.length := by
  have e0 : qcount "" = 0 := by decide
  have e1 : qcount clientClause = 1 := by decide
  have e3 : qcount (inClause "secmst_bond_category" f.products) = f.products.length :=
    qcount_inClause _ _ (by decide)
  have e4 : qcount (inClause "secmst_glimpse_sector" f.sectors) = f.sectors.length :=
    qcount_inClause _ _ (by decide)
  have e5 : qcount (inClause "secmst_region" f.regions) = f.regions.length :=
    qcount_inClause _ _ (by decide)
  have e6 : qcount (inClause "secmst_seniority" f.seniorities) = f.seniorities.length :=
    qcount_inClause _ _ (by decide)
  unfold buildExtraFiltersStats
  rcases hcid : activeClientId f with _ | c <;>
    by_cases hctx : ctx = "client" <;>
    by_cases hp : f.products = [] <;>
    by_cases hs : f.sectors = [] <;>
    by_cases hr : f.regions = [] <;>
    by_cases hsen : f.seniorities = [] <;>
    simp [hcid, hctx, hp, hs, hr, hsen, qcount_append, e0, e1, e3, e4, e5, e6] <;>
    omega

/-- An `IN` chunk depends on its selection only through its length. -/
theorem inClause_eq_inClauseN (col : String) (vals : List String) :
    inClause col vals = inClauseN col vals.length := by
  unfold inClause inClauseN
  rw [List.map_const']

/-- The part_003 compiler's SQL text is a function of the filter shape. -/
theorem buildExtraFilters_sql_shape (f : Filters) (ctx : String) :
    (buildExtraFilters f ctx).sql = canonicalSql (filterShape f) ctx := by
  unfold buildExtraFilters canonicalSql filterShape
  rcases hcid : activeClientId f with _ | c <;>
    by_cases hctx : ctx = "client" <;>
    cases hu : f.includeUnknown <;>
    by_cases hp : f.products = [] <;>
    by_cases hs : f.sectors = [] <;>
    by_cases hr : f.regions = [] <;>
    by_cases hsen : f.seniorities = [] <;>
    simp [hcid, hctx, hu, hp, hs, hr, hsen, inClause_eq_inClauseN, List.length_eq_zero]

/-- The StatsBar compiler's SQL text is a function of the filter shape. -/
theorem buildExtraFiltersStats_sql_shape (f : Filters) (ctx : String) :
    (buildExtraFiltersStats f ctx).sql = canonicalSqlStats (filterShape f) ctx := by
  unfold buildExtraFiltersStats canonicalSqlStats filterShape
  rcases hcid : activeClientId f with _ | c <;>
    by_cases hctx : ctx = "client" <;>
    by_cases hp : f.products = [] <;>
    by_cases hs : f.sectors = [] <;>
    by_cases hr : f.regions = [] <;>
    by_cases hsen : f.seniorities = [] <;>
    simp [hcid, hctx, hp, hs, hr, hsen, inClause_eq_inClauseN, List.length_eq_zero]

/-- The part_003 compiler's parameters are exactly the configured client id
(in client context) followed by the four selections, in order. -/
theorem buildExtraFilters_params_vals (f : Filters) (ctx : String) :
    (buildExtraFilters f ctx).params =
      (if ctx = "client" then (activeClientId f).toList else []) ++ f.products ++
        f.sectors ++ f.regions ++ f.seniorities := by
  unfold buildExtraFilters
  rcases hcid : activeClientId f with _ | c <;>
    by_cases hctx : ctx = "client" <;>
    cases hu : f.includeUnknown <;>
    by_cases hp : f.products = [] <;>
    by_cases hs : f.sectors = [] <;>
    by_cases hr : f.regions = [] <;>
    by_cases hsen : f.seniorities = [] <;>
    simp [hcid, hctx, hu, hp, hs, hr, hsen]

/-- C9.  Parameterization discipline of both `buildExtraFilters` variants:
the SQL fragment holds exactly one `?` per accompanying parameter; the
parameter list is exactly the configured client id (client context only)
followed by the selected products, sectors, regions and seniorities; and
the SQL text is a function of the filter shape alone, so no selected value
is ever interpolated into it. -/
theorem C9_placeholder_param_discipline :
    (∀ (f : Filters) (ctx : String),
        qcount (buildExtraFilters f ctx).sql = (buildExtraFilters f ctx).params.length
      ∧ qcount (buildExtraFiltersStats f ctx).sql =
          (buildExtraFiltersStats f ctx).params.length
      ∧ (buildExtraFilters f ctx).params =
          (if ctx = "client" then (activeClientId f).toList else []) ++ f.products ++
            f.sectors ++ f.regions ++ f.seniorities
      ∧ (buildExtraFilters f ctx).sql = canonicalSql (filterShape f) ctx
      ∧ (buildExtraFiltersStats f ctx).sql = canonicalSqlStats (filterShape f) ctx)
  ∧ (∀ (f g : Filters) (ctx : String), filterShape f = filterShape g →
      (buildExtraFilters f ctx).sql = (buildExtraFilters g ctx).sql
    ∧ (buildExtraFiltersStats f ctx).sql = (buildExtraFiltersStats g ctx).sql) := by
  constructor
  · intro f ctx
    exact ⟨qcount_buildExtraFilters f ctx, qcount_buildExtraFiltersStats f ctx,
      buildExtraFilters_params_vals f ctx, buildExtraFilters_sql_shape f ctx,
      buildExtraFiltersStats_sql_shape f ctx⟩
  · intro f g ctx h
    constructor
    · rw [buildExtraFilters_sql_shape f ctx, buildExtraFilters_sql_shape g ctx, h]
    · rw [buildExtraFiltersStats_sql_shape f ctx, buildExtraFiltersStats_sql_shape g ctx, h]

/-- C9 witness: two selections agreeing in shape but not in values compile
to the same SQL text, applied at concrete inputs. -/
theorem C9_placeholder_param_discipline_witness :
    filterShape ⟨some "Client 1", false, ["IG Credit"], [], [], []⟩ =
        filterShape ⟨some "Client 2", false, ["HY Credit"], [], [], []⟩
    ∧ (buildExtraFilters ⟨some "Client 1", false, ["IG Credit"], [], [], []⟩ "client").sql =
        (buildExtraFilters ⟨some "Client 2", false, ["HY Credit"], [], [], []⟩ "client").sql :=
  ⟨by decide, (C9_placeholder_param_discipline.2
      ⟨some "Client 1", false, ["IG Credit"], [], [], []⟩
      ⟨some "Client 2", false, ["HY Credit"], [], [], []⟩ "client" (by decide)).1⟩

/-- C6 counterexample: with context `client` and no configured client id,
`buildExtraFilters` does not raise; it returns a normally compiled
fragment - identical to the market-context output - whose text omits the
client-identity condition and whose parameter list is empty.  No
`ValidationError` (indeed no error path at all) exists in the compiler. -/
theorem C6_no_validation_error_cex :
    buildExtraFilters ⟨none, false, [], [], [], []⟩ "client" = ⟨unknownClause, []⟩
    ∧ buildExtraFilters ⟨none, false, [], [], [], []⟩ "client" =
        buildExtraFilters ⟨none, false, [], [], [], []⟩ "market"
    ∧ (∀ v, FilterCond.clientEq v ∉ extraConds ⟨none, false, [], [], [], []⟩ "client")
    ∧ FilterCond.clientEq "Client 1" ∉
        extraConds ⟨none, false, [], [], [], []⟩ "client" := by
  refine ⟨by decide, by decide, ?_, by decide⟩
  intro v hv
  have h := clientEq_mem_extraConds hv
  simp [activeClientId] at h

/-- C6 amended.  With context `client` and no configured (JS-truthy)
client id, the compiler raises nothing: both variants return the same
fragment as in market context, the client-identity condition is never
emitted, and the client id contributes no parameter. -/
theorem C6_missing_client_id_compiles_as_market :
    ∀ (f : Filters), activeClientId f = none →
      buildExtraFilters f "client" = buildExtraFilters f "market"
    ∧ buildExtraFiltersStats f "client" = buildExtraFiltersStats f "market"
    ∧ (∀ v, FilterCond.clientEq v ∉ extraConds f "client")
    ∧ (buildExtraFilters f "client").params =
        f.products ++ f.sectors ++ f.regions ++ f.seniorities := by
  intro f hcid
  refine ⟨?_, ?_, ?_, ?_⟩
  · unfold buildExtraFilters
    rw [hcid]
    simp
  · unfold buildExtraFiltersStats
    rw [hcid]
    simp
  · intro v hv
    have h := clientEq_mem_extraConds hv
    rw [hcid] at h
    exact Option.noConfusion h.2
  · rw [buildExtraFilters_params_vals]
    rw [hcid]
    simp

/-- C6 amended witness: the market-equal compilation applied at a concrete
selection with no client id. -/
theorem C6_missing_client_id_compiles_as_market_witness :
    buildExtraFilters ⟨none, true, ["IG Credit"], [], [], []⟩ "client" =
      buildExtraFilters ⟨none, true, ["IG Credit"], [], [], []⟩ "market" :=
  (C6_missing_client_id_compiles_as_market ⟨none, true, ["IG Credit"], [], [], []⟩
    (by decide)).1

/-! ## Lemmas: AggregateStatsEngine -/

/-- The running SQL `MIN` over a nonempty tail: a member not above the seed
and below every row's date. -/
theorem sqlMin_fold_spec :
    ∀ (rows : List SRow) (a : String),
      ∃ dm,
        rows.foldl
            (fun acc r =>
              match acc with
              | none => some r.tradeDate
              | some b => some (if r.tradeDate < b then r.tradeDate else b))
            (some a) = some dm
        ∧ (dm = a ∨ dm ∈ rows.map SRow.tradeDate) ∧ dm ≤ a ∧ ∀ r ∈ rows, dm ≤ r.tradeDate := by
  intro rows
  induction rows with
  | nil => intro a; exact ⟨a, rfl, Or.inl rfl, le_refl a, by simp⟩
  | cons r rs ih =>
    intro a
    obtain ⟨dm, h1, h2, h3, h4⟩ := ih (if r.tradeDate < a then r.tradeDate else a)
    have ha2 : (if r.tradeDate < a then r.tradeDate else a) ≤ a := by
      by_cases hlt : r.tradeDate < a
      · rw [if_pos hlt]; exact le_of_lt hlt
      · rw [if_neg hlt]
    have hr2 : (if r.tradeDate < a then r.tradeDate else a) ≤ r.tradeDate := by
      by_cases hlt : r.tradeDate < a
      · rw [if_pos hlt]
      · rw [if_neg hlt]; exact le_of_not_lt hlt
    refine ⟨dm, h1, ?_, le_trans h3 ha2, ?_⟩
    · rcases h2 with h2 | h2
      · by_cases hlt : r.tradeDate < a
        · rw [if_pos hlt] at h2
          exact Or.inr (by simp [h2])
        · rw [if_neg hlt] at h2
          exact Or.inl h2
      · exact Or.inr (List.mem_cons_of_mem _ h2)
    · intro x hx
      rcases List.mem_cons.mp hx with he | hm
      · subst he
        exact le_trans h3 hr2
      · exact h4 x hm

/-- The running SQL `MAX` over a nonempty tail. -/
theorem sqlMax_fold_spec :
    ∀ (rows : List SRow) (a : String),
      ∃ dm,
        rows.foldl
            (fun acc r =>
              match acc with
              | none => some r.tradeDate
              | some b => some (if b < r.tradeDate then r.tradeDate else b))
            (some a) = some dm
        ∧ (dm = a ∨ dm ∈ rows.map SRow.tradeDate) ∧ a ≤ dm ∧ ∀ r ∈ rows, r.tradeDate ≤ dm := by
  intro rows
  induction rows with
  | nil => intro a; exact ⟨a, rfl, Or.inl rfl, le_refl a, by simp⟩
  | cons r rs ih =>
    intro a
    obtain ⟨dm, h1, h2, h3, h4⟩ := ih (if a < r.tradeDate then r.tradeDate else a)
    have ha2 : a ≤ (if a < r.tradeDate then r.tradeDate else a) := by
      by_cases hlt : a < r.tradeDate
      · rw [if_pos hlt]; exact le_of_lt hlt
      · rw [if_neg hlt]
    have hr2 : r.tradeDate ≤ (if a < r.tradeDate then r.tradeDate else a) := by
      by_cases hlt : a < r.tradeDate
      · rw [if_pos hlt]
      · rw [if_neg hlt]; exact le_of_not_lt hlt
    refine ⟨dm, h1, ?_, le_trans ha2 h3, ?_⟩
    · rcases h2 with h2 | h2
      · by_cases hlt : a < r.tradeDate
        · rw [if_pos hlt] at h2
          exact Or.inr (by simp [h2])
        · rw [if_neg hlt] at h2
          exact Or.inl h2
      · exact Or.inr (List.mem_cons_of_mem _ h2)
    · intro x hx
      rcases List.mem_cons.mp hx with he | hm
      · subst he
        exact le_trans hr2 h3
      · exact h4 x hm

/-- C8 counterexample: a single Buy row with a null dealer.  The per-side
query counts `COUNT(DISTINCT counter_party)` without COALESCE, so the Buy
group reports 0 distinct dealers, not the 1 the claim requires; only the
totals query coalesces and reports 1. -/
theorem C8_per_side_null_dealer_dropped_cex :
    (statsForSide [⟨"Buy", none, some "XS1", 10, 100, "2024-01-02"⟩] "Buy").map
        (fun st => st.dealers) = some 0
    ∧ (statsTotals [⟨"Buy", none, some "XS1", 10, 100, "2024-01-02"⟩]).dealers = 1
    ∧ ¬ ((statsForSide [⟨"Buy", none, some "XS1", 10, 100, "2024-01-02"⟩] "Buy").map
        (fun st => st.dealers) = some 1) := by
  refine ⟨?_, ?_, ?_⟩ <;> decide

/-- C8 amended.  The overall distinct dealer count coalesces a null dealer
to the literal "Unknown Dealer", so null-dealer rows contribute exactly one
extra distinct dealer; the per-side (Buy/Sell) distinct dealer counts use
the raw column and drop null dealers; alongside these, trade count, volume
sum, value sum (Σ rankingVolume × price × 0.01), distinct instrument
count, average trade size (times count gives the volume sum) and min/max
trade date are computed. -/
theorem C8_aggregate_stats_dealer_coalesce :
    ∀ (rows : List SRow),
      ((∃ r ∈ rows, r.dealer = none) → (∀ r ∈ rows, r.dealer ≠ some "Unknown Dealer") →
        (statsTotals rows).dealers = distinctCount (rows.filterMap SRow.dealer) + 1)
    ∧ (∀ (s : String) (st : SideStats), statsForSide rows s = some st →
        st.dealers = distinctCount ((rows.filter fun r => r.side == s).filterMap SRow.dealer)
      ∧ st.trades = (rows.filter fun r => r.side == s).length
      ∧ st.value =
          ((rows.filter fun r => r.side == s).map fun r => r.volume * r.price * (1 / 100)).sum)
    ∧ (statsTotals rows).trades = rows.length
    ∧ (statsTotals rows).value = (rows.map fun r => r.volume * r.price * (1 / 100)).sum
    ∧ (statsTotals rows).isins = distinctCount (rows.filterMap fun r => r.isin)
    ∧ (rows ≠ [] →
        (statsTotals rows).avgSize * rows.length = (statsTotals rows).volume)
    ∧ (rows ≠ [] → ∃ dm, (statsTotals rows).minDate = some dm ∧
        dm ∈ rows.map SRow.tradeDate ∧ ∀ r ∈ rows, dm ≤ r.tradeDate)
    ∧ (rows ≠ [] → ∃ dm, (statsTotals rows).maxDate = some dm ∧
        dm ∈ rows.map SRow.tradeDate ∧ ∀ r ∈ rows, r.tradeDate ≤ dm) := by
  intro rows
  refine ⟨?_, ?_, rfl, rfl, rfl, ?_, ?_, ?_⟩
  · intro h1 h2
    show distinctCount (rows.map coalesceDealer) = _
    unfold distinctCount
    rw [← List.card_toFinset, ← List.card_toFinset]
    have hud : "Unknown Dealer" ∉ (rows.filterMap SRow.dealer).toFinset := by
      rw [List.mem_toFinset, List.mem_filterMap]
      rintro ⟨r, hr, hd⟩
      exact h2 r hr hd
    have hset : (rows.map coalesceDealer).toFinset =
        insert "Unknown Dealer" (rows.filterMap SRow.dealer).toFinset := by
      ext x
      rw [List.mem_toFinset, List.mem_map, Finset.mem_insert, List.mem_toFinset,
        List.mem_filterMap]
      constructor
      · rintro ⟨r, hr, he⟩
        cases hd : r.dealer with
        | some d =>
          right
          refine ⟨r, hr, ?_⟩
          rw [hd]
          rw [← he]
          simp [coalesceDealer, hd]
        | none =>
          left
          rw [← he]
          simp [coalesceDealer, hd]
      · rintro (he | ⟨r, hr, hd⟩)
        · obtain ⟨r0, hr0, hd0⟩ := h1
          exact ⟨r0, hr0, by simp [coalesceDealer, hd0, he]⟩
        · exact ⟨r, hr, by simp [coalesceDealer, hd]⟩
    rw [hset, Finset.card_insert_of_not_mem hud]
  · intro s st h
    simp only [statsForSide] at h
    by_cases he : (rows.filter fun r => r.side == s).isEmpty
    · rw [if_pos he] at h
      exact absurd h (by simp)
    · rw [if_neg he] at h
      have h2 := Option.some.inj h
      rw [← h2]
      exact ⟨rfl, rfl, rfl⟩
  · intro hne
    show (rows.map fun r => r.volume).sum / rows.length * rows.length = _
    have hlen : (rows.length : ℚ) ≠ 0 := by
      simp [List.length_eq_zero]
      intro hc
      exact hne hc
    rw [div_mul_cancel₀ _ hlen]
    rfl
  · intro hne
    cases rows with
    | nil => exact absurd rfl hne
    | cons r rs =>
      obtain ⟨dm, h1, h2, h3, h4⟩ := sqlMin_fold_spec rs r.tradeDate
      refine ⟨dm, h1, ?_, ?_⟩
      · rcases h2 with h2 | h2
        · simp [h2]
        · exact List.mem_cons_of_mem _ h2
      · intro x hx
        rcases List.mem_cons.mp hx with hex | hm
        · subst hex
          exact h3
        · exact h4 x hm
  · intro hne
    cases rows with
    | nil => exact absurd rfl hne
    | cons r rs =>
      obtain ⟨dm, h1, h2, h3, h4⟩ := sqlMax_fold_spec rs r.tradeDate
      refine ⟨dm, h1, ?_, ?_⟩
      · rcases h2 with h2 | h2
        · simp [h2]
        · exact List.mem_cons_of_mem _ h2
      · intro x hx
        rcases List.mem_cons.mp hx with hex | hm
        · subst hex
          exact h3
        · exact h4 x hm

/-- C8 amended witness: the coalesced overall count and the per-side raw
count applied at one null-dealer Buy row plus one named Sell row. -/
theorem C8_aggregate_stats_dealer_coalesce_witness :
    (statsTotals
        [⟨"Buy", none, some "XS1", 10, 100, "2024-01-02"⟩,
          ⟨"Sell", some "D1", some "XS2", 20, 50, "2024-01-03"⟩]).dealers =
      distinctCount
          ([⟨"Buy", none, some "XS1", 10, 100, "2024-01-02"⟩,
            ⟨"Sell", some "D1", some "XS2", 20, 50, "2024-01-03"⟩].filterMap SRow.dealer)
        + 1 :=
  (C8_aggregate_stats_dealer_coalesce
      [⟨"Buy", none, some "XS1", 10, 100, "2024-01-02"⟩,
        ⟨"Sell", some "D1", some "XS2", 20, 50, "2024-01-03"⟩]).1
    (by decide) (by decide)

/-- C10.  If either scope's ranking result is empty, the comparison memo
returns an empty table, even when the other scope is non-empty. -/
theorem C10_empty_scope_empty_table :
    ∀ (clientData marketData : List GRow) (topN : ℕ),
      clientData = [] ∨ marketData = [] →
        (comparisonResult clientData marketData topN).tableData = [] := by
  intro c m n h
  unfold comparisonResult
  rw [if_pos h]

/-- C10 witness: an empty client result against a non-empty market result
produces zero rows - the market-only dealer is not listed. -/
theorem C10_empty_scope_empty_table_witness :
    (comparisonResult [] [⟨"Y", 1, 5⟩] 15).tableData = [] :=
  C10_empty_scope_empty_table [] [⟨"Y", 1, 5⟩] 15 (Or.inl rfl)

/-! ## Lemmas: RollingWindowRankTracker -/

/-- JS month normalization preserves the absolute month number. -/
theorem mkMonthSpec_idx (y m0 : ℤ) : (mkMonthSpec y m0).monthIdx = y * 12 + m0 := by
  show (y + m0 / 12) * 12 + m0 % 12 = y * 12 + m0
  omega

/-- Looking up a mapped association list maps the looked-up value. -/
theorem olook_map_snd {β γ : Type} (l : List (String × β)) (g : β → γ) (k : String) :
    olook (l.map fun p => (p.1, g p.2)) k = (olook l k).map g := by
  induction l with
  | nil => simp [olook]
  | cons p rest ih =>
    by_cases hk : p.1 = k
    · simp [olook, hk]
    · simp [olook, hk, ih]

/-- A month key absent from all rows stays absent from the grouping. -/
theorem not_mem_okeys_pushMonth_foldl {k : String} :
    ∀ (rows : List MRow) (bm : List (String × List DV)), k ∉ okeys bm →
      (∀ r ∈ rows, r.month ≠ k) → k ∉ okeys (rows.foldl pushMonth bm) := by
  intro rows
  induction rows with
  | nil => intro bm h _; simpa using h
  | cons r rs ih =>
    intro bm h hr
    rw [List.foldl_cons]
    refine ih (pushMonth bm r) ?_ (fun x hx => hr x (List.mem_cons_of_mem _ hx))
    show k ∉ okeys (oset bm r.month _)
    rw [okeys_oset]
    have hrk : r.month ≠ k := hr r (by simp)
    by_cases hm : r.month ∈ okeys bm
    · simpa [hm] using h
    · rw [if_neg hm, List.mem_append]
      rintro (hc | hc)
      · exact h hc
      · rw [List.mem_singleton] at hc
        exact hrk hc.symm

/-- A month with no matching rows has no rank entry, hence a null rank and
zero volume for every dealer. -/
theorem rankOf_volOf_none {rows : List MRow} {mo : String}
    (h : ∀ r ∈ rows, r.month ≠ mo) :
    (∀ d, rankOf rows mo d = none) ∧ ∀ d, volOf rows mo d = 0 := by
  have hkey : mo ∉ okeys (byMonthOf rows) :=
    not_mem_okeys_pushMonth_foldl rows [] (by simp [okeys]) h
  have hnone : olook (byMonthOf rows) mo = none := olook_eq_none hkey
  have hbm : olook (buildMonthRanks rows) mo = none := by
    unfold buildMonthRanks
    have hm2 := olook_map_snd (byMonthOf rows) (fun dvs => assignRanks (sortVolDesc dvs)) mo
    rw [hnone] at hm2
    simpa using hm2
  constructor
  · intro d
    unfold rankOf
    rw [hbm]
    rfl
  · intro d
    unfold volOf
    rw [hbm]
    rfl

/-- C5.  The rolling tracker emits exactly six points, one per calendar
month of the trailing window ending the month of `dateTo - 1`, in strictly
ascending chronological order; a month with zero matching rows for a scope
yields a null rank for that scope (and zero client volume, null delta),
never zero or last place. -/
theorem C5_rolling_window_tracker :
    ∀ (yTo mTo dTo : ℤ) (clientRows marketRows : List MRow) (dealer : String),
      (trackerPoints (generateLast6Months yTo mTo dTo) clientRows marketRows
          dealer).length = 6
    ∧ ((generateLast6Months yTo mTo dTo).map fun ms => ms.monthIdx).Pairwise (· < ·)
    ∧ ((trackerPoints (generateLast6Months yTo mTo dTo) clientRows marketRows
          dealer).map fun p => p.month) =
        ((generateLast6Months yTo mTo dTo).map fun ms => ms.key)
    ∧ (∀ p ∈ trackerPoints (generateLast6Months yTo mTo dTo) clientRows marketRows dealer,
        ((∀ r ∈ clientRows, r.month ≠ p.month) →
          p.clientRank = none ∧ p.clientVolume = 0 ∧ p.delta = none)
      ∧ ((∀ r ∈ marketRows, r.month ≠ p.month) →
          p.marketRank = none ∧ p.delta = none)) := by
  intro yTo mTo dTo clientRows marketRows dealer
  refine ⟨?_, ?_, ?_, ?_⟩
  · simp [trackerPoints, generateLast6Months]
  · simp only [generateLast6Months, List.map_map]
    simp [Function.comp, mkMonthSpec_idx]
  · simp [trackerPoints, List.map_map, Function.comp]
  · intro p hp
    rw [trackerPoints, List.mem_map] at hp
    obtain ⟨ms, hms, hpe⟩ := hp
    constructor
    · intro hno
      have hmo : ∀ r ∈ clientRows, r.month ≠ ms.key := by
        intro r hr
        have := hno r hr
        rw [← hpe] at this
        exact this
      obtain ⟨hrk, hvol⟩ := rankOf_volOf_none hmo
      rw [← hpe]
      refine ⟨hrk dealer, hvol dealer, ?_⟩
      show (match rankOf clientRows ms.key dealer, rankOf marketRows ms.key dealer with
        | some a, some b => some ((b : ℤ) - (a : ℤ))
        | _, _ => none) = none
      rw [hrk dealer]
    · intro hno
      have hmo : ∀ r ∈ marketRows, r.month ≠ ms.key := by
        intro r hr
        have := hno r hr
        rw [← hpe] at this
        exact this
      obtain ⟨hrk, _⟩ := rankOf_volOf_none hmo
      rw [← hpe]
      refine ⟨hrk dealer, ?_⟩
      show (match rankOf clientRows ms.key dealer, rankOf marketRows ms.key dealer with
        | some a, some b => some ((b : ℤ) - (a : ℤ))
        | _, _ => none) = none
      rw [hrk dealer]
      rcases rankOf clientRows ms.key dealer with _ | v <;> rfl

/-- C5 witness: six strictly ascending points for a concrete anchor date
with empty data, every rank null. -/
theorem C5_rolling_window_tracker_witness :
    (trackerPoints (generateLast6Months 2024 3 15) [] [] "D1").length = 6
    ∧ ∀ p ∈ trackerPoints (generateLast6Months 2024 3 15) [] [] "D1",
        p.clientRank = none ∧ p.marketRank = none := by
  have h := C5_rolling_window_tracker 2024 3 15 [] [] "D1"
  refine ⟨h.1, ?_⟩
  intro p hp
  have h4 := h.2.2.2 p hp
  exact ⟨(h4.1 (by simp)).1, (h4.2 (by simp)).1⟩

/-! ## Lemmas: buildMonthRanks -/

/-- With pairwise-distinct dealers, rank assignment lists the sorted
dealers in order with ranks `i + 1`. -/
theorem assignRanks_eq {l : List DV} (h : (l.map DV.dealer).Nodup) :
    assignRanks l =
      l.enum.map fun p => (p.2.dealer, (⟨p.1 + 1, p.2.volume⟩ : RankInfo)) := by
  unfold assignRanks
  apply objOfList_eq
  have hkeys : ((l.enum.map fun p => (p.2.dealer, (⟨p.1 + 1, p.2.volume⟩ : RankInfo))).map
      Prod.fst) = l.map DV.dealer := by
    rw [List.map_map]
    have h2 : (l.enum.map fun p => p.2.dealer) = (l.enum.map Prod.snd).map DV.dealer := by
      rw [List.map_map]
      rfl
    calc (l.enum.map (Prod.fst ∘ fun p => (p.2.dealer, (⟨p.1 + 1, p.2.volume⟩ : RankInfo))))
        = l.enum.map fun p => p.2.dealer := rfl
      _ = (l.enum.map Prod.snd).map DV.dealer := h2
      _ = l.map DV.dealer := by rw [List.enum_map_snd]
  rw [hkeys]
  exact h

/-- The `i + 1` positions of an enumerated list are `1 .. length`. -/
theorem enum_ranks_eq_range (l : List DV) :
    (l.enum.map fun p => p.1 + 1) = List.range' 1 l.length := by
  have h1 : (l.enum.map fun p => p.1 + 1) = (l.enum.map Prod.fst).map fun i => i + 1 := by
    rw [List.map_map]
    rfl
  rw [h1, List.enum_map_fst, List.range'_eq_map_range]
  refine List.map_congr_left ?_
  intro a _
  omega

/-- C3 counterexample: the monthly ranking loop sorts by
`b.volume - a.volume` only - no name tie-break.  On the legitimate
query-ordered input A:100, C:50, B:50 (one month), the stable sort keeps C
before B, so C gets rank 2 and B rank 3, while the claim's name-ascending
tie-break demands B=2, C=3. -/
theorem C3_name_tiebreak_cex :
    rankOf [⟨"2024-01", "A", 100⟩, ⟨"2024-01", "C", 50⟩, ⟨"2024-01", "B", 50⟩]
        "2024-01" "C" = some 2
    ∧ rankOf [⟨"2024-01", "A", 100⟩, ⟨"2024-01", "C", 50⟩, ⟨"2024-01", "B", 50⟩]
        "2024-01" "B" = some 3
    ∧ ¬ (rankOf [⟨"2024-01", "A", 100⟩, ⟨"2024-01", "C", 50⟩, ⟨"2024-01", "B", 50⟩]
          "2024-01" "B" = some 2
        ∧ rankOf [⟨"2024-01", "A", 100⟩, ⟨"2024-01", "C", 50⟩, ⟨"2024-01", "B", 50⟩]
          "2024-01" "C" = some 3) := by
  refine ⟨?_, ?_, ?_⟩ <;> decide

/-- C3 amended.  Per month, RankingEngine sorts dealers descending by
volume with ties kept in query-result order (JS stable sort); ranks are the
1-based positions - dense, no gaps, no duplicates - when the month's
dealers are distinct; on the input ordered A:100, B:50, C:50 it yields
A=1, B=2, C=3, with percentages 50, 25, 25. -/
theorem C3_ranking_dense_stable_sort :
    (∀ (rows : List MRow) (mo : String) (dvs : List DV),
        olook (byMonthOf rows) mo = some dvs → (dvs.map DV.dealer).Nodup →
        ∃ mm, olook (buildMonthRanks rows) mo = some mm
          ∧ mm = (sortVolDesc dvs).enum.map
              (fun p => (p.2.dealer, (⟨p.1 + 1, p.2.volume⟩ : RankInfo)))
          ∧ (mm.map fun p => p.2.rank) = List.range' 1 dvs.length
          ∧ (mm.map fun p => p.2.volume).Pairwise (fun a b => b ≤ a)
          ∧ ((mm.map fun p => (⟨p.1, p.2.volume⟩ : DV))).Perm dvs)
  ∧ buildMonthRanks [⟨"2024-01", "A", 100⟩, ⟨"2024-01", "B", 50⟩, ⟨"2024-01", "C", 50⟩] =
      [("2024-01", [("A", ⟨1, 100⟩), ("B", ⟨2, 50⟩), ("C", ⟨3, 50⟩)])]
  ∧ rankMapOf [⟨"A", 3, 100⟩, ⟨"B", 1, 50⟩, ⟨"C", 1, 50⟩]
        (totalVolumeOf [⟨"A", 3, 100⟩, ⟨"B", 1, 50⟩, ⟨"C", 1, 50⟩]) =
      [("A", ⟨1, 100, 50, 3⟩), ("B", ⟨2, 50, 25, 1⟩), ("C", ⟨3, 50, 25, 1⟩)] := by
  refine ⟨?_, by decide, ?_⟩
  · intro rows mo dvs h hd
    have hsp : (sortVolDesc dvs).Perm dvs := List.perm_insertionSort volGE dvs
    have hd2 : ((sortVolDesc dvs).map DV.dealer).Nodup :=
      ((hsp.map DV.dealer).nodup_iff).mpr hd
    have hmm : olook (buildMonthRanks rows) mo = some (assignRanks (sortVolDesc dvs)) := by
      unfold buildMonthRanks
      have h2 := olook_map_snd (byMonthOf rows) (fun d2 => assignRanks (sortVolDesc d2)) mo
      rw [h] at h2
      simpa using h2
    refine ⟨assignRanks (sortVolDesc dvs), hmm, assignRanks_eq hd2, ?_, ?_, ?_⟩
    · rw [assignRanks_eq hd2, List.map_map]
      have h3 : ((sortVolDesc dvs).enum.map
          ((fun p => p.2.rank) ∘ fun p => (p.2.dealer, (⟨p.1 + 1, p.2.volume⟩ : RankInfo))))
          = (sortVolDesc dvs).enum.map fun p => p.1 + 1 := rfl
      rw [h3, enum_ranks_eq_range, hsp.length_eq]
    · rw [assignRanks_eq hd2, List.map_map]
      have h3 : ((sortVolDesc dvs).enum.map
          ((fun p => p.2.volume) ∘ fun p => (p.2.dealer, (⟨p.1 + 1, p.2.volume⟩ : RankInfo))))
          = ((sortVolDesc dvs).enum.map Prod.snd).map DV.volume := by
        rw [List.map_map]
        rfl
      rw [h3, List.enum_map_snd]
      have hs := List.sorted_insertionSort volGE dvs
      exact List.Pairwise.map DV.volume (fun a b hab => hab) hs
    · rw [assignRanks_eq hd2, List.map_map]
      have h3 : ((sortVolDesc dvs).enum.map
          ((fun p => (⟨p.1, p.2.volume⟩ : DV)) ∘
            fun p => (p.2.dealer, (⟨p.1 + 1, p.2.volume⟩ : RankInfo))))
          = (sortVolDesc dvs).enum.map Prod.snd := rfl
      rw [h3, List.enum_map_snd]
      exact hsp
  · norm_num [rankMapOf, objOfList, List.enum, List.enumFrom, oset, pctOf, totalVolumeOf]
    decide

/-- C3 amended witness: the dense-rank characterization applied at the
Scenario B month, discharging the grouping and distinctness hypotheses. -/
theorem C3_ranking_dense_stable_sort_witness :
    ∃ mm, olook (buildMonthRanks
        [⟨"2024-01", "A", 100⟩, ⟨"2024-01", "B", 50⟩, ⟨"2024-01", "C", 50⟩]) "2024-01" =
      some mm ∧ (mm.map fun p => p.2.rank) = List.range' 1 3 := by
  obtain ⟨mm, h1, _, h3, _, _⟩ := C3_ranking_dense_stable_sort.1
    [⟨"2024-01", "A", 100⟩, ⟨"2024-01", "B", 50⟩, ⟨"2024-01", "C", 50⟩] "2024-01"
    [⟨"A", 100⟩, ⟨"B", 50⟩, ⟨"C", 50⟩] (by decide) (by decide)
  exact ⟨mm, h1, h3⟩

/-! ## Lemmas: ComparisonEngine -/

/-- With distinct names, the rank map lists the rows in order. -/
theorem rankMapOf_eq {l : List GRow} (hn : (l.map GRow.name).Nodup) (total : ℚ) :
    rankMapOf l total =
      l.enum.map fun p =>
        (p.2.name,
          (⟨p.1 + 1, p.2.totalVolume, pctOf p.2.totalVolume total,
            p.2.totalTransactions⟩ : REntry)) := by
  unfold rankMapOf
  apply objOfList_eq
  have hkeys : ((l.enum.map fun p =>
      (p.2.name,
        (⟨p.1 + 1, p.2.totalVolume, pctOf p.2.totalVolume total,
          p.2.totalTransactions⟩ : REntry))).map Prod.fst) = l.map GRow.name := by
    rw [List.map_map]
    calc (l.enum.map (Prod.fst ∘ fun p =>
          (p.2.name,
            (⟨p.1 + 1, p.2.totalVolume, pctOf p.2.totalVolume total,
              p.2.totalTransactions⟩ : REntry))))
        = (l.enum.map Prod.snd).map GRow.name := by
          rw [List.map_map]
          rfl
      _ = l.map GRow.name := by rw [List.enum_map_snd]
  rw [hkeys]
  exact hn

/-- Looking up the `i`-th row's name in the rank map gives rank `i + 1`
with that row's volume, percentage and trade count. -/
theorem olook_rankMapOf {l : List GRow} (hn : (l.map GRow.name).Nodup) (total : ℚ)
    {i : ℕ} {g : GRow} (hget : l.get? i = some g) :
    olook (rankMapOf l total) g.name =
      some ⟨i + 1, g.totalVolume, pctOf g.totalVolume total, g.totalTransactions⟩ := by
  rw [rankMapOf_eq hn total]
  have henum : l.enum.get? i = some (i, g) := by
    rw [List.get?_enum, hget]
    rfl
  have hmem : ((i, g) : ℕ × GRow) ∈ l.enum := by
    rw [List.mem_iff_get?]
    exact ⟨i, henum⟩
  have hpair : (g.name,
      (⟨i + 1, g.totalVolume, pctOf g.totalVolume total, g.totalTransactions⟩ : REntry)) ∈
      l.enum.map fun p =>
        (p.2.name,
          (⟨p.1 + 1, p.2.totalVolume, pctOf p.2.totalVolume total,
            p.2.totalTransactions⟩ : REntry)) := by
    refine List.mem_map.mpr ⟨(i, g), hmem, rfl⟩
  have hknd : ((l.enum.map fun p =>
      (p.2.name,
        (⟨p.1 + 1, p.2.totalVolume, pctOf p.2.totalVolume total,
          p.2.totalTransactions⟩ : REntry))).map Prod.fst).Nodup := by
    rw [List.map_map]
    have h2 : (l.enum.map (Prod.fst ∘ fun p =>
        (p.2.name,
          (⟨p.1 + 1, p.2.totalVolume, pctOf p.2.totalVolume total,
            p.2.totalTransactions⟩ : REntry)))) = (l.enum.map Prod.snd).map GRow.name := by
      rw [List.map_map]
      rfl
    rw [h2, List.enum_map_snd]
    exact hn
  exact olook_of_mem_nodup hpair hknd

/-- A name outside the result has no rank-map entry. -/
theorem olook_rankMapOf_none {l : List GRow} (hn : (l.map GRow.name).Nodup) (total : ℚ)
    {x : String} (hx : x ∉ l.map GRow.name) : olook (rankMapOf l total) x = none := by
  rw [rankMapOf_eq hn total]
  apply olook_eq_none
  show x ∉ okeys _
  unfold okeys
  rw [List.map_map]
  have h2 : (l.enum.map (Prod.fst ∘ fun p =>
      (p.2.name,
        (⟨p.1 + 1, p.2.totalVolume, pctOf p.2.totalVolume total,
          p.2.totalTransactions⟩ : REntry)))) = (l.enum.map Prod.snd).map GRow.name := by
    rw [List.map_map]
    rfl
  rw [h2, List.enum_map_snd]
  exact hx

/-- The merged row of a client dealer keeps the dealer's name. -/
theorem mkClientRow_name (cmap mmap : List (String × REntry)) (g : GRow) :
    (mkClientRow cmap mmap g).name = g.name := by
  unfold mkClientRow
  rcases olook mmap g.name with _ | e <;> rfl

/-- The merged row of a market-only dealer keeps the dealer's name. -/
theorem mkMarketRow_name (mmap : List (String × REntry)) (g : GRow) :
    (mkMarketRow mmap g).name = g.name := rfl

/-- C4 counterexample: for a client-only dealer X, the merged row stores
the number 0, not null, as its market percentage (`m?.pct || 0`), although
its market rank is null; and with an empty client result the memo returns
no rows at all, so market-only dealers are not listed. -/
theorem C4_market_pct_zero_not_null_cex :
    ((mergedOf [⟨"X", 1, 10⟩] [⟨"Y", 1, 5⟩]).head?.map
        fun r => (r.name, r.clientRank, r.marketRank, r.marketPct)) =
      some ("X", some 1, none, some 0)
    ∧ (some (0 : ℚ) : Option ℚ) ≠ none
    ∧ (comparisonResult [] [⟨"Z", 2, 7⟩] 15).tableData.length = 0 := by
  refine ⟨?_, ?_, ?_⟩ <;> decide

/-- C4 amended.  The comparison table is the merge - every client dealer
first, in client-rank order with rank `i + 1`, annotated with its market
rank if present and null otherwise but with the number 0 (not null) as a
missing market percentage; then every market-only dealer in market order
with null client rank; `rankDelta = marketRank - clientRank` when both
exist and null otherwise; a requested row limit truncates strictly after
this merge-ordering (both scopes being non-empty, else the table is
empty). -/
theorem C4_comparison_merge_order :
    (∀ (c m : List GRow) (n : ℕ), c ≠ [] → m ≠ [] →
        (comparisonResult c m n).tableData = (mergedOf c m).take n
      ∧ (comparisonResult c m n).clientTotal = totalVolumeOf c
      ∧ (comparisonResult c m n).marketTotal = totalVolumeOf m)
  ∧ (∀ (c m : List GRow),
      ((mergedOf c m).map fun r => r.name) =
        c.map GRow.name ++
          ((m.filter fun g => !decide (g.name ∈ c.map GRow.name)).map GRow.name))
  ∧ (∀ (c m : List GRow), (c.map GRow.name).Nodup → (m.map GRow.name).Nodup →
      ∀ (i : ℕ) (g : GRow), c.get? i = some g →
        ∃ row, (mergedOf c m).get? i = some row ∧ row.name = g.name
          ∧ row.clientRank = some (i + 1)
          ∧ row.clientPct = some (pctOf g.totalVolume (totalVolumeOf c))
          ∧ (g.name ∉ m.map GRow.name →
              row.marketRank = none ∧ row.marketPct = some 0 ∧ row.rankDelta = none)
          ∧ (∀ (j : ℕ) (h2 : GRow), m.get? j = some h2 → h2.name = g.name →
              row.marketRank = some (j + 1)
            ∧ row.marketPct = some (pctOf h2.totalVolume (totalVolumeOf m))
            ∧ row.rankDelta = some ((j + 1 : ℤ) - (i + 1 : ℤ))))
  ∧ (∀ (c m : List GRow), (m.map GRow.name).Nodup →
      ∀ row ∈ (mergedOf c m).drop c.length,
        row.clientRank = none ∧ row.clientPct = some 0 ∧ row.rankDelta = none
      ∧ ∃ (j : ℕ) (h2 : GRow), m.get? j = some h2 ∧ h2.name = row.name ∧
          row.marketRank = some (j + 1)) := by
  refine ⟨?_, ?_, ?_, ?_⟩
  · intro c m n hc hm
    unfold comparisonResult
    rw [if_neg (by simp [hc, hm])]
    exact ⟨rfl, rfl, rfl⟩
  · intro c m
    unfold mergedOf
    rw [List.map_append, List.map_map, List.map_map]
    congr 1
    exact List.map_congr_left fun g _ => mkClientRow_name _ _ g
  · intro c m hnc hnm i g hget
    have hilt : i < c.length := by
      rcases List.get?_eq_some.mp hget with ⟨h, _⟩
      exact h
    have hrow : (mergedOf c m).get? i =
        some (mkClientRow (rankMapOf c (totalVolumeOf c)) (rankMapOf m (totalVolumeOf m)) g) := by
      unfold mergedOf
      rw [List.get?_append (by simpa using hilt), List.get?_map, hget]
      rfl
    refine ⟨_, hrow, mkClientRow_name _ _ g, ?_, ?_, ?_, ?_⟩
    · unfold mkClientRow
      rw [olook_rankMapOf hnc (totalVolumeOf c) hget]
      rcases olook (rankMapOf m (totalVolumeOf m)) g.name with _ | e <;> rfl
    · unfold mkClientRow
      rw [olook_rankMapOf hnc (totalVolumeOf c) hget]
      rcases olook (rankMapOf m (totalVolumeOf m)) g.name with _ | e <;> rfl
    · intro hno
      unfold mkClientRow
      rw [olook_rankMapOf hnc (totalVolumeOf c) hget,
        olook_rankMapOf_none hnm (totalVolumeOf m) hno]
      exact ⟨rfl, rfl, rfl⟩
    · intro j h2 hj he
      unfold mkClientRow
      have hm2 : olook (rankMapOf m (totalVolumeOf m)) g.name =
          some ⟨j + 1, h2.totalVolume, pctOf h2.totalVolume (totalVolumeOf m),
            h2.totalTransactions⟩ := by
        rw [← he]
        exact olook_rankMapOf hnm (totalVolumeOf m) hj
      rw [olook_rankMapOf hnc (totalVolumeOf c) hget, hm2]
      refine ⟨rfl, rfl, ?_⟩
      show some ((((j : ℤ) + 1)) - ((i : ℤ) + 1)) = some ((j + 1 : ℤ) - (i + 1 : ℤ))
      norm_num
  · intro c m hnm row hrow
    have hdrop : (mergedOf c m).drop c.length =
        (m.filter fun g => !decide (g.name ∈ c.map GRow.name)).map
          (mkMarketRow (rankMapOf m (totalVolumeOf m))) := by
      unfold mergedOf
      have hlen : c.length = (c.map (mkClientRow (rankMapOf c (totalVolumeOf c))
          (rankMapOf m (totalVolumeOf m)))).length := by
        rw [List.length_map]
      rw [hlen, List.drop_left]
    rw [hdrop, List.mem_map] at hrow
    obtain ⟨g, hgf, hge⟩ := hrow
    have hgm : g ∈ m := (List.mem_filter.mp hgf).1
    obtain ⟨j, hj⟩ := List.mem_iff_get?.mp hgm
    have hmk : olook (rankMapOf m (totalVolumeOf m)) g.name =
        some ⟨j + 1, g.totalVolume, pctOf g.totalVolume (totalVolumeOf m),
          g.totalTransactions⟩ :=
      olook_rankMapOf hnm (totalVolumeOf m) hj
    refine ⟨?_, ?_, ?_, j, g, hj, ?_, ?_⟩
    · rw [← hge]
      rfl
    · rw [← hge]
      rfl
    · rw [← hge]
      rfl
    · rw [← hge, mkMarketRow_name]
    · rw [← hge]
      unfold mkMarketRow
      rw [hmk]
      rfl

/-- C4 amended witness: the merge applied at a one-dealer client result
against a two-dealer market result, discharging non-emptiness and
distinctness; dealer X has client rank 1, market rank 2, delta +1, and the
truncation equation holds. -/
theorem C4_comparison_merge_order_witness :
    ((comparisonResult [⟨"X", 1, 10⟩] [⟨"W", 1, 20⟩, ⟨"X", 2, 10⟩] 15).tableData =
        (mergedOf [⟨"X", 1, 10⟩] [⟨"W", 1, 20⟩, ⟨"X", 2, 10⟩]).take 15)
    ∧ ∃ row, (mergedOf [⟨"X", 1, 10⟩] [⟨"W", 1, 20⟩, ⟨"X", 2, 10⟩]).get? 0 = some row
        ∧ row.clientRank = some 1 ∧ row.marketRank = some 2
        ∧ row.rankDelta = some 1 := by
  constructor
  · exact (C4_comparison_merge_order.1 [⟨"X", 1, 10⟩] [⟨"W", 1, 20⟩, ⟨"X", 2, 10⟩] 15
      (by decide) (by decide)).1
  · obtain ⟨row, h1, _, h3, _, _, h6⟩ := C4_comparison_merge_order.2.2.1
      [⟨"X", 1, 10⟩] [⟨"W", 1, 20⟩, ⟨"X", 2, 10⟩] (by decide) (by decide) 0 ⟨"X", 1, 10⟩
      (by decide)
    obtain ⟨hmr, _, hd⟩ := h6 1 ⟨"X", 2, 10⟩ (by decide) (by decide)
    exact ⟨row, h1, h3, hmr, by rw [hd]; decide⟩
